import Mathlib

/-!
# WebAssemblyPointerArrayIndexExpand

A shallow embedding of `WebAssemblyPointerArrayIndexExpand::visitGetElementPtrInst`
(lib/Target/WebAssembly/WebAssemblyPointerArrayIndexExpand.cpp) and theorems about it.

The visit mutates one `getelementptr` instruction in place (its index operands and its
in-bounds flag) and inserts new instructions directly before it.  The embedding passes that
state explicitly: the index operands, the flag, and the list of instructions inserted before
the instruction, in program order.  A visit that would read an operand that does not exist, or
that would inspect an unresolved (null) type, returns `none`.
-/

namespace PointerArrayIndexExpand

/-! ## Data model -/

/-- LLVM types, as far as the pass inspects them.  `other` stands for every type that is
neither an integer, a pointer, an array, a vector nor a struct (floating point, function
types, ...).  Every aggregate here has a body, so every modelled aggregate is sized. -/
inductive Ty where
  | int (w : Nat)
  | other (id : Nat)
  | ptr (pointee : Ty)
  | arr (n : Nat) (elem : Ty)
  | vec (n : Nat) (elem : Ty)
  | struct (fields : List Ty)

/-- The type of an index operand.  The operands of a `getelementptr` after the pointer are
integers or vectors of integers; nothing else gets past the IR verifier. -/
inductive IdxTy where
  | int (w : Nat)
  | vec (n : Nat) (w : Nat)
  deriving DecidableEq, Repr

/-- Values that occur as index operands and as operands of the inserted instructions.

* `constantInt w bits` is a `ConstantInt` of width `w` with bit pattern `bits`;
* `constantSplat n w bits` is the constant vector that `ConstantInt::get` builds for a vector
  type (a `Constant`, but not a `ConstantInt`);
* `other id ty` is any other value that was there before the visit (argument, instruction
  result, constant expression, ...), of type `ty`;
* `mul lhs rhs` is the result of a `Mul` instruction created by the visit;
* `trunc v ty` is the result of a `TruncInst` created by the visit.

Value names (`value->getName()`) carry no behaviour and are left out. -/
inductive Value where
  | constantInt (w : Nat) (bits : Nat)
  | constantSplat (n : Nat) (w : Nat) (bits : Nat)
  | other (id : Nat) (ty : IdxTy)
  | mul (lhs rhs : Value)
  | trunc (v : Value) (ty : IdxTy)
  deriving DecidableEq, Repr

/-- The `getelementptr` instruction: the type of its pointer operand (operand 0), its index
operands (operands 1 .. getNumIndices()), and its in-bounds flag. -/
structure GetElementPtrInst where
  pointerOperandType : Ty
  indices : List Value
  isInBounds : Bool

/-- The instruction after (part of) a visit, together with the instructions that were
inserted before it (`InsertBefore = &Inst`), first inserted first. -/
structure Rewritten where
  indices : List Value
  isInBounds : Bool
  inserted : List Value
  deriving DecidableEq, Repr

/-! ## The LLVM helpers the pass calls -/

/-- The test `Type::isPointerTy()`. -/
def Ty.isPointerTy : Ty → Bool
  | .ptr _ => true
  | _ => false

/-- The test `Type::isStructTy()`. -/
def Ty.isStructTy : Ty → Bool
  | .struct _ => true
  | _ => false

/-- The test `dyn_cast<ArrayType>(t) != nullptr && t->getElementType()->isPointerTy()` of
lines 62-63 and 103-104. -/
def Ty.isArrayOfPointers : Ty → Bool
  | .arr _ e => e.isPointerTy
  | _ => false

/-- The result of `Value::getType()`. -/
def Value.getType : Value → IdxTy
  | .constantInt w _ => .int w
  | .constantSplat n w _ => .vec n w
  | .other _ ty => ty
  | .mul lhs _ => lhs.getType
  | .trunc _ ty => ty

/-- The cast `dyn_cast<ConstantInt>(value)`: width and bit pattern of a `ConstantInt`. -/
def Value.asConstantInt : Value → Option (Nat × Nat)
  | .constantInt w bits => some (w, bits)
  | _ => none

/-- Two's complement reading of the low `m` bits of `x`. -/
def signExtend (m : Nat) (x : Nat) : Int :=
  if 2 * (x % 2 ^ m) < 2 ^ m then ((x % 2 ^ m : Nat) : Int) else ((x % 2 ^ m : Nat) : Int) - 2 ^ m

/-- Modelled from the spec: `APInt::getSExtValue` is LLVM library code outside this file.  For a
width up to 64 it sign-extends the value to `int64_t`; for a wider constant it returns the low
64-bit word read as `int64_t` (the assertion that the value fits is compiled out of release
builds). -/
def getSExtValue (w bits : Nat) : Int :=
  signExtend (min w 64) bits

/-- The `int64_t` product `intVal * 2` of lines 72 and 91.  A product outside the `int64_t`
range (possible only for a constant wider than 62 bits) is taken to wrap in two's complement. -/
def mulInt64 (a b : Int) : Int :=
  signExtend 64 ((a * b) % 2 ^ 64).toNat

/-- Conversion of an `int64_t` argument to the `uint64_t` parameter of `ConstantInt::get`. -/
def toUInt64 (x : Int) : Nat :=
  (x % 2 ^ 64).toNat

/-- Modelled from the spec: `ConstantInt::get(Type *, uint64_t V, bool isSigned = false)` is
LLVM library code outside this file.  It builds the constant of the given integer type whose
bit pattern is `V` cut to the width of the type (zero-extended when the type is wider than 64
bits), and the splat of that constant for a vector type. -/
def ConstantInt.get (ty : IdxTy) (V : Nat) : Value :=
  match ty with
  | .int w => .constantInt w (V % 2 ^ w)
  | .vec n w => .constantSplat n w (V % 2 ^ w)

/-- Modelled from the spec: `CompositeType::indexValid` followed by
`CompositeType::getTypeAtIndex`, LLVM library code outside this file: one step of "the type
reached by following an index".  A struct takes a 32-bit constant (or a splat of one) that is
below the number of members and yields that member; an array or vector takes any index and
yields its element type; nothing else, a pointer included, can be indexed. -/
def getTypeAtIndex (agg : Ty) (idx : Value) : Option Ty :=
  match agg with
  | .struct fields =>
    match idx with
    | .constantInt w bits => if w = 32 then fields[bits]? else none
    | .constantSplat _ w bits => if w = 32 then fields[bits]? else none
    | _ => none
  | .arr _ e => some e
  | .vec _ e => some e
  | _ => none

/-- Follows all of `idxList` through `agg` with `getTypeAtIndex`. -/
def getIndexedTypeFrom (agg : Ty) : List Value → Option Ty
  | [] => some agg
  | idx :: rest => (getTypeAtIndex agg idx).bind fun t => getIndexedTypeFrom t rest

/-- Modelled from the spec: `GetElementPtrInst::getIndexedType(Type *, ArrayRef<Value *>)` is
LLVM library code outside this file: "the type reached by following an index prefix through a
nested type".  The empty list gives the type itself; the first index steps over the pointer
and selects nothing; every later index selects a member or element.  `none` is the null
pointer that LLVM returns when the indices do not fit the type. -/
def getIndexedType (agg : Ty) (idxList : List Value) : Option Ty :=
  match idxList with
  | [] => some agg
  | _ :: rest => getIndexedTypeFrom agg rest

/-! ## The pass -/

/-- Lines 64-80, the loop of the pointer-array branch.  `done` holds the operands before
position `I` (already rewritten), `todo` the operands from position `I` on. -/
def pointerArrayLoop : List Value → List Value → Bool → List Value → Rewritten
  | done, [], inBounds, inserted => ⟨done, inBounds, inserted⟩
  | done, value :: todo, inBounds, inserted =>
    match value.asConstantInt with
    | some (w, bits) =>
      let intVal := getSExtValue w bits
      if intVal = 0 then
        pointerArrayLoop (done ++ [value]) todo inBounds inserted
      else
        let newVal := ConstantInt.get value.getType (toUInt64 (mulInt64 intVal 2))
        pointerArrayLoop (done ++ [newVal]) todo false inserted
    | none =>
      let multiply := ConstantInt.get value.getType 2
      let newVal := Value.mul value multiply
      pointerArrayLoop (done ++ [newVal]) todo false (inserted ++ [newVal])

/-- Lines 85-107, the loop of the struct branch.  `done` holds the operands before position
`I` (already rewritten), `todo` the operands from position `I` on; `IdxVec` is the rewritten
operand list up to and including position `I`.  A null `indexType` is a failure. -/
def structLoop (baseType : Ty) :
    List Value → List Value → Bool → List Value → Option (List Value × List Value)
  | done, [], _, inserted => some (done, inserted)
  | done, value :: todo, indexingIntoPointerArray, inserted =>
    let step : Value × Bool × List Value :=
      if indexingIntoPointerArray then
        match value.asConstantInt with
        | some (w, bits) =>
          let intVal := getSExtValue w bits
          (ConstantInt.get value.getType (toUInt64 (mulInt64 intVal 2)), false, inserted)
        | none =>
          let multiply := ConstantInt.get value.getType 2
          let newVal := Value.mul value multiply
          (newVal, false, inserted ++ [newVal])
      else (value, indexingIntoPointerArray, inserted)
    let IdxVec := done ++ [step.1]
    match getIndexedType baseType IdxVec with
    | none => none
    | some indexType =>
      if indexType.isArrayOfPointers then
        structLoop baseType IdxVec todo true step.2.2
      else
        structLoop baseType IdxVec todo step.2.1 step.2.2

/-- Lines 61-108, the doubling stage, for a pointer operand of type pointer-to-`baseType`. -/
def doublingStage (baseType : Ty) (Inst : GetElementPtrInst) : Option Rewritten :=
  if baseType.isPointerTy || baseType.isArrayOfPointers then
    some (pointerArrayLoop [] Inst.indices Inst.isInBounds [])
  else if baseType.isStructTy then
    match structLoop baseType [] Inst.indices false [] with
    | none => none
    | some (indices, inserted) => some ⟨indices, Inst.isInBounds, inserted⟩
  else
    some ⟨Inst.indices, Inst.isInBounds, []⟩

/-- Lines 113-124, the loop of the narrowing sweep; `targetType` is `i32`. -/
def narrowLoop (targetType : IdxTy) : List Value → List Value → List Value → List Value × List Value
  | done, [], inserted => (done, inserted)
  | done, value :: todo, inserted =>
    match value.asConstantInt with
    | some (w, bits) =>
      let intVal := getSExtValue w bits
      let newVal := ConstantInt.get targetType (toUInt64 intVal)
      narrowLoop targetType (done ++ [newVal]) todo inserted
    | none =>
      let newVal := Value.trunc value targetType
      narrowLoop targetType (done ++ [newVal]) todo (inserted ++ [newVal])

/-- Lines 110-125, the narrowing stage.  `Inst.getOperand(1)` does not exist when the
instruction has no index: that read is a failure. -/
def narrowingStage (st : Rewritten) : Option Rewritten :=
  match st.indices with
  | [] => none
  | first :: _ =>
    let operandType := first.getType
    if operandType = IdxTy.int 64 then
      let targetType := IdxTy.int 32
      let r := narrowLoop targetType [] st.indices st.inserted
      some ⟨r.1, st.isInBounds, r.2⟩
    else
      some st

/-- Lines 58-127, `visitGetElementPtrInst`.  A pointer operand that is not of pointer type (a
vector of pointers) skips the whole body. -/
def visitGetElementPtrInst (Inst : GetElementPtrInst) : Option Rewritten :=
  match Inst.pointerOperandType with
  | .ptr baseType =>
    match doublingStage baseType Inst with
    | none => none
    | some st => narrowingStage st
  | _ => some ⟨Inst.indices, Inst.isInBounds, []⟩

/-- The verifier's check that the indices fit the type the pointer operand points to. -/
def GetElementPtrInst.wellTyped (Inst : GetElementPtrInst) : Bool :=
  match Inst.pointerOperandType with
  | .ptr baseType => (getIndexedType baseType Inst.indices).isSome
  | .vec _ (.ptr baseType) => (getIndexedType baseType Inst.indices).isSome
  | _ => false

/-! ## What each loop does to one operand -/

/-- The operand that the pointer-array loop leaves at a position that held `value`. -/
def pointerArrayNewVal (value : Value) : Value :=
  match value.asConstantInt with
  | some (w, bits) =>
    if getSExtValue w bits = 0 then value
    else ConstantInt.get value.getType (toUInt64 (mulInt64 (getSExtValue w bits) 2))
  | none => Value.mul value (ConstantInt.get value.getType 2)

/-- The operand is a `ConstantInt` whose `getSExtValue` is zero: the pointer-array loop skips it. -/
def isZeroConstant (value : Value) : Bool :=
  match value.asConstantInt with
  | some (w, bits) => decide (getSExtValue w bits = 0)
  | none => false

/-- The multiply the doubling loops insert for an operand they rewrite, if any. -/
def insertedMul (value : Value) : Option Value :=
  match value.asConstantInt with
  | some _ => none
  | none => some (Value.mul value (ConstantInt.get value.getType 2))

/-- The operand that the struct loop leaves at a flagged position that held `value`. -/
def structNewVal (value : Value) : Value :=
  match value.asConstantInt with
  | some (w, bits) => ConstantInt.get value.getType (toUInt64 (mulInt64 (getSExtValue w bits) 2))
  | none => Value.mul value (ConstantInt.get value.getType 2)

/-- The operand that the narrowing loop leaves at a position that held `value`. -/
def narrowNewVal (value : Value) : Value :=
  match value.asConstantInt with
  | some (w, bits) => ConstantInt.get (IdxTy.int 32) (toUInt64 (getSExtValue w bits))
  | none => Value.trunc value (IdxTy.int 32)

/-- The truncation the narrowing loop inserts for an operand, if any. -/
def insertedTrunc (value : Value) : Option Value :=
  match value.asConstantInt with
  | some _ => none
  | none => some (Value.trunc value (IdxTy.int 32))

/-- The value is the result of a multiply created by the visit. -/
def Value.isMul : Value → Bool
  | .mul _ _ => true
  | _ => false

/-- The value is the result of a truncation created by the visit. -/
def Value.isTrunc : Value → Bool
  | .trunc _ _ => true
  | _ => false

/-- The operands the struct loop leaves for `todo`, when the operands before `todo` reach the
type `cur`: an operand is rewritten exactly when the type reached before it is an array of
pointers. -/
def structWalk (cur : Ty) : List Value → List Value
  | [] => []
  | v :: rest =>
    (if cur.isArrayOfPointers then structNewVal v else v) ::
      (match getTypeAtIndex cur v with
       | some t => structWalk t rest
       | none => [])

/-- The multiplies the struct loop inserts for `todo`, in the situation of `structWalk`. -/
def structWalkInserted (cur : Ty) : List Value → List Value
  | [] => []
  | v :: rest =>
    (if cur.isArrayOfPointers then (insertedMul v).toList else []) ++
      (match getTypeAtIndex cur v with
       | some t => structWalkInserted t rest
       | none => [])

/-- Position `i` (counted from zero) comes after at least one index, and the indices before
it reach an array of pointers. -/
def structSelects (baseType : Ty) (indices : List Value) (i : Nat) : Bool :=
  decide (1 ≤ i) &&
    (match getIndexedType baseType (indices.take i) with
     | some t => t.isArrayOfPointers
     | none => false)

/-- The inputs on which the visit has a defined result: the indices fit the type the pointer
operand points to, and when the pointer operand has pointer type (the body of the visit is
entered) there is a first index for line 110 to read. -/
def GetElementPtrInst.inDomain (Inst : GetElementPtrInst) : Bool :=
  Inst.wellTyped &&
    (match Inst.pointerOperandType with
     | .ptr _ => !Inst.indices.isEmpty
     | _ => true)

/-- The instruction as the visit leaves it.  The visit writes operands 1 and up and the
in-bounds flag only (`setOperand(I, _)` with `I ≥ 1`, `setIsInBounds`), so the pointer operand
is the one it was. -/
def GetElementPtrInst.rewritten (Inst : GetElementPtrInst) (r : Rewritten) :
    GetElementPtrInst :=
  ⟨Inst.pointerOperandType, r.indices, r.isInBounds⟩

/-- The instructions of a function body, by the kinds the driver and the claims tell apart:
a `getelementptr`; a multiply or truncation created by a visit, whose result is `v`; and any
other instruction, which the pass neither visits nor creates. -/
inductive Instruction where
  | gep (Inst : GetElementPtrInst)
  | created (v : Value)
  | other (id : Nat)

/-- The instruction was created by a visit. -/
def Instruction.isCreated : Instruction → Bool
  | .created _ => true
  | _ => false

/-- The instruction is a `getelementptr`. -/
def Instruction.isGEP : Instruction → Bool
  | .gep _ => true
  | _ => false

/-- What the driver leaves in the place of one instruction: for a `getelementptr` the
instructions its visit inserted, directly before it, and the rewritten instruction; any other
instruction as it is. -/
def expandInstruction : Instruction → Option (List Instruction)
  | .gep Inst =>
    match visitGetElementPtrInst Inst with
    | none => none
    | some r => some (r.inserted.map Instruction.created ++ [Instruction.gep (Inst.rewritten r)])
  | x => some [x]

/-- Modelled from the spec: `InstVisitor::visit(Function &)` is LLVM library code outside this
file: it "iterates the function's instruction stream once, dispatching only on
address-computation instructions; all other instruction kinds are untouched", and newly
inserted instructions "are a different instruction kind and are naturally skipped".  `done`
is the stream before the cursor, `todo` the stream from the cursor on; what a visit inserts
goes before the visited instruction, behind the cursor. -/
def visitLoop : List Instruction → List Instruction → Option (List Instruction)
  | done, [] => some done
  | done, x :: todo =>
    match x with
    | .gep Inst =>
      match visitGetElementPtrInst Inst with
      | none => none
      | some r =>
        visitLoop (done ++ r.inserted.map Instruction.created ++
          [Instruction.gep (Inst.rewritten r)]) todo
    | _ => visitLoop (done ++ [x]) todo

/-- Lines 129-132, `runOnFunction`: `visit(F); return true;`. -/
def runOnFunction (F : List Instruction) : Option (List Instruction × Bool) :=
  match visitLoop [] F with
  | none => none
  | some F' => some (F', true)

/-- One visit, of the instruction at position `n` of a body: a `getelementptr` is rewritten in
place with the inserted instructions directly before it; an instruction of another kind is
not dispatched. -/
def visitAt (F : List Instruction) (n : Nat) : Option (List Instruction) :=
  match F[n]? with
  | some (.gep Inst) =>
    match visitGetElementPtrInst Inst with
    | none => none
    | some r =>
      some (F.take n ++ r.inserted.map Instruction.created ++
        [Instruction.gep (Inst.rewritten r)] ++ F.drop (n + 1))
  | _ => some F

/-- The frame of the pass on one instruction: a `getelementptr` may differ from the original in
its index operands and its in-bounds flag only, any other instruction is the original. -/
def sameUpToIndices : Instruction → Instruction → Prop
  | .gep a, .gep b => b.pointerOperandType = a.pointerOperandType
  | .other a, .other b => b = a
  | .created a, .created b => b = a
  | _, _ => False

/-- The state of the struct loop between two iterations: the index operands already passed, as
rewritten; the variable `indexingIntoPointerArray`; the instructions inserted so far. -/
structure StructLoopState where
  operands : List Value
  indexingIntoPointerArray : Bool
  inserted : List Value

/-- Lines 86-106, the body of the struct loop for the operand `value` at the next position.
The flag is reset only where a doubling is applied (line 98), set where the resolved type is an
array of pointers (line 105), and otherwise left alone. -/
def structIteration (baseType : Ty) (s : StructLoopState) (value : Value) :
    Option StructLoopState :=
  let s1 : StructLoopState :=
    if s.indexingIntoPointerArray then
      match value.asConstantInt with
      | some (w, bits) =>
        let intVal := getSExtValue w bits
        ⟨s.operands ++ [ConstantInt.get value.getType (toUInt64 (mulInt64 intVal 2))], false,
          s.inserted⟩
      | none =>
        let multiply := ConstantInt.get value.getType 2
        let newVal := Value.mul value multiply
        ⟨s.operands ++ [newVal], false, s.inserted ++ [newVal]⟩
    else ⟨s.operands ++ [value], s.indexingIntoPointerArray, s.inserted⟩
  match getIndexedType baseType s1.operands with
  | none => none
  | some indexType =>
    if indexType.isArrayOfPointers then
      some ⟨s1.operands, true, s1.inserted⟩
    else
      some s1

/-- The struct traversal in the words of the specification: at each position it "(a) applies
doubling per the flag from the previous step, (b) resolves the type reached by the index
prefix [1..position] against the struct's nested layout, and (c) sets the flag true if that
resolved type is an array-of-pointers, else false". -/
def specStructIteration (baseType : Ty) (s : StructLoopState) (value : Value) :
    Option StructLoopState :=
  let newVal := if s.indexingIntoPointerArray then structNewVal value else value
  let inserted :=
    if s.indexingIntoPointerArray then s.inserted ++ (insertedMul value).toList else s.inserted
  match getIndexedType baseType (s.operands ++ [newVal]) with
  | none => none
  | some resolved => some ⟨s.operands ++ [newVal], resolved.isArrayOfPointers, inserted⟩

/-- The loop state after the operands `todo` have been processed from the state `s`. -/
def structIterations (baseType : Ty) : StructLoopState → List Value → Option StructLoopState
  | s, [] => some s
  | s, value :: todo =>
    match structIteration baseType s value with
    | none => none
    | some s' => structIterations baseType s' todo

/-- The flag of the specification after position `I` (counted from one): the type reached by
the index prefix `[1..I]` is an array whose element type is a pointer. -/
def specFlagAfter (baseType : Ty) (indices : List Value) (I : Nat) : Bool :=
  match getIndexedType baseType (indices.take I) with
  | some t => t.isArrayOfPointers
  | none => false

/-! ## Arithmetic of the constant rewrites -/

theorem signExtend_eq_of_cong (m n : Nat) (z : Int)
    (hdvd : (2 : Int) ^ m ∣ (n : Int) - z) (h1 : -((2 : Int) ^ m) ≤ 2 * z)
    (h2 : 2 * z < (2 : Int) ^ m) : signExtend m n = z := by
  have hP : (0 : Int) < (2 : Int) ^ m := by positivity
  have hr0 : (0 : Int) ≤ ((n % 2 ^ m : Nat) : Int) := Int.ofNat_nonneg _
  have hrlt : ((n % 2 ^ m : Nat) : Int) < (2 : Int) ^ m := by
    have : n % 2 ^ m < 2 ^ m := Nat.mod_lt _ (by positivity)
    exact_mod_cast this
  have hrdvd : (2 : Int) ^ m ∣ ((n % 2 ^ m : Nat) : Int) - (n : Int) := by
    have : ((n % 2 ^ m : Nat) : Int) = (n : Int) % (2 : Int) ^ m := by push_cast; rfl
    rw [this]
    have h := Int.dvd_sub_of_emod_eq (rfl : (n : Int) % (2 : Int) ^ m = (n : Int) % (2 : Int) ^ m)
    have h2 := (dvd_neg).mpr h
    simpa using h2
  unfold signExtend
  split
  · rename_i hlt
    have hlt2 : 2 * ((n % 2 ^ m : Nat) : Int) < (2 : Int) ^ m := by exact_mod_cast hlt
    have hd : (2 : Int) ^ m ∣ ((n % 2 ^ m : Nat) : Int) - z := by
      have := dvd_add hrdvd hdvd
      simpa using this
    have := Int.eq_zero_of_abs_lt_dvd hd (by rw [abs_lt]; constructor <;> omega)
    omega
  · rename_i hge
    have hge2 : (2 : Int) ^ m ≤ 2 * ((n % 2 ^ m : Nat) : Int) := by
      have := Nat.le_of_not_lt hge
      exact_mod_cast this
    have hd : (2 : Int) ^ m ∣ ((n % 2 ^ m : Nat) : Int) - (2 : Int) ^ m - z := by
      have := dvd_sub (dvd_add hrdvd hdvd) (dvd_refl ((2 : Int) ^ m))
      have e : ((n % 2 ^ m : Nat) : Int) - (2 : Int) ^ m - z
          = ((n % 2 ^ m : Nat) : Int) - (n : Int) + ((n : Int) - z) - (2 : Int) ^ m := by ring
      rw [e]; exact this
    have := Int.eq_zero_of_abs_lt_dvd hd (by rw [abs_lt]; constructor <;> omega)
    omega

theorem signExtend_range (m n : Nat) :
    -((2 : Int) ^ m) ≤ 2 * signExtend m n ∧ 2 * signExtend m n < (2 : Int) ^ m := by
  have hrlt : ((n % 2 ^ m : Nat) : Int) < (2 : Int) ^ m := by
    have : n % 2 ^ m < 2 ^ m := Nat.mod_lt _ (by positivity)
    exact_mod_cast this
  have hr0 : (0 : Int) ≤ ((n % 2 ^ m : Nat) : Int) := Int.ofNat_nonneg _
  unfold signExtend
  split
  · rename_i hlt
    have hlt2 : 2 * ((n % 2 ^ m : Nat) : Int) < (2 : Int) ^ m := by exact_mod_cast hlt
    constructor <;> omega
  · rename_i hge
    have hge2 : (2 : Int) ^ m ≤ 2 * ((n % 2 ^ m : Nat) : Int) := by
      have := Nat.le_of_not_lt hge
      exact_mod_cast this
    constructor <;> omega

theorem toUInt64_mod_dvd (z : Int) (w : Nat) (hw : w ≤ 64) :
    (2 : Int) ^ w ∣ ((toUInt64 z % 2 ^ w : Nat) : Int) - z := by
  have hP : (0 : Int) < (2 : Int) ^ 64 := by positivity
  have h64 : (2 : Int) ^ w ∣ (2 : Int) ^ 64 := pow_dvd_pow 2 hw
  have e1 : ((toUInt64 z : Nat) : Int) = z % (2 : Int) ^ 64 := by
    unfold toUInt64
    exact Int.toNat_of_nonneg (Int.emod_nonneg _ (ne_of_gt hP))
  have e2 : ((toUInt64 z % 2 ^ w : Nat) : Int) = ((toUInt64 z : Nat) : Int) % (2 : Int) ^ w := by
    rw [Int.natCast_mod]
    norm_cast
  rw [e2, e1, Int.emod_emod_of_dvd _ h64]
  have h := Int.dvd_sub_of_emod_eq (rfl : z % (2 : Int) ^ w = z % (2 : Int) ^ w)
  have h2 := (dvd_neg).mpr h
  simpa using h2

/-- The `int64_t` product is the exact product when the exact product fits 64 bits. -/
theorem mulInt64_exact (a b : Int) (h1 : -((2 : Int) ^ 64) ≤ 2 * (a * b))
    (h2 : 2 * (a * b) < (2 : Int) ^ 64) : mulInt64 a b = a * b := by
  unfold mulInt64
  apply signExtend_eq_of_cong _ _ _ _ h1 h2
  have hP : (0 : Int) < (2 : Int) ^ 64 := by positivity
  rw [Int.toNat_of_nonneg (Int.emod_nonneg _ (ne_of_gt hP))]
  have h := Int.dvd_sub_of_emod_eq (rfl : (a * b) % (2 : Int) ^ 64 = (a * b) % (2 : Int) ^ 64)
  have h3 := (dvd_neg).mpr h
  simpa using h3

/-- Re-materialising the value `z` at a width up to 64 that can hold it gives a constant
that reads back as `z`. -/
theorem getSExtValue_get (w : Nat) (z : Int) (hw : w ≤ 64)
    (h1 : -((2 : Int) ^ w) ≤ 2 * z) (h2 : 2 * z < (2 : Int) ^ w) :
    getSExtValue w (toUInt64 z % 2 ^ w) = z := by
  unfold getSExtValue
  rw [Nat.min_eq_left hw]
  exact signExtend_eq_of_cong _ _ _ (toUInt64_mod_dvd z w hw) h1 h2

/-! ## The loops as maps over the operand list -/

theorem pointerArrayLoop_eq (todo : List Value) :
    ∀ (done : List Value) (inBounds : Bool) (inserted : List Value),
      pointerArrayLoop done todo inBounds inserted =
        ⟨done ++ todo.map pointerArrayNewVal, inBounds && todo.all isZeroConstant,
          inserted ++ todo.filterMap insertedMul⟩ := by
  induction todo with
  | nil => intro done inBounds inserted; simp [pointerArrayLoop]
  | cons value todo ih =>
    intro done inBounds inserted
    cases hc : value.asConstantInt with
    | none =>
      simp [pointerArrayLoop, hc, ih, pointerArrayNewVal, isZeroConstant, insertedMul]
    | some p =>
      obtain ⟨w, bits⟩ := p
      by_cases hz : getSExtValue w bits = 0
      · simp [pointerArrayLoop, hc, ih, pointerArrayNewVal, isZeroConstant, insertedMul, hz]
      · simp [pointerArrayLoop, hc, ih, pointerArrayNewVal, isZeroConstant, insertedMul, hz]

theorem narrowLoop_eq (todo : List Value) :
    ∀ (done : List Value) (inserted : List Value),
      narrowLoop (IdxTy.int 32) done todo inserted =
        (done ++ todo.map narrowNewVal, inserted ++ todo.filterMap insertedTrunc) := by
  induction todo with
  | nil => intro done inserted; simp [narrowLoop]
  | cons value todo ih =>
    intro done inserted
    cases hc : value.asConstantInt with
    | none => simp [narrowLoop, hc, ih, narrowNewVal, insertedTrunc]
    | some p => simp [narrowLoop, hc, ih, narrowNewVal, insertedTrunc]

theorem doublingStage_pointerArray (baseType : Ty) (Inst : GetElementPtrInst)
    (hpat : (baseType.isPointerTy || baseType.isArrayOfPointers) = true) :
    doublingStage baseType Inst =
      some ⟨Inst.indices.map pointerArrayNewVal,
        Inst.isInBounds && Inst.indices.all isZeroConstant,
        Inst.indices.filterMap insertedMul⟩ := by
  unfold doublingStage
  rw [if_pos hpat, pointerArrayLoop_eq]
  simp

theorem getIndexedTypeFrom_append (xs ys : List Value) :
    ∀ agg : Ty, getIndexedTypeFrom agg (xs ++ ys) =
      (getIndexedTypeFrom agg xs).bind fun t => getIndexedTypeFrom t ys := by
  induction xs with
  | nil => intro agg; simp [getIndexedTypeFrom]
  | cons x xs ih =>
    intro agg
    simp only [List.cons_append, getIndexedTypeFrom]
    cases getTypeAtIndex agg x with
    | none => simp
    | some t => simp [ih]

theorem getIndexedType_snoc (baseType : Ty) (done : List Value) (x : Value) (hne : done ≠ []) :
    getIndexedType baseType (done ++ [x]) =
      (getIndexedType baseType done).bind fun t => getTypeAtIndex t x := by
  cases done with
  | nil => exact absurd rfl hne
  | cons d ds =>
    simp only [List.cons_append, getIndexedType, getIndexedTypeFrom_append]
    cases getIndexedTypeFrom baseType ds with
    | none => simp
    | some t =>
      simp only [Option.some_bind, getIndexedTypeFrom]
      cases getTypeAtIndex t x <;> simp

theorem getTypeAtIndex_arrayOfPointers (cur : Ty) (x y : Value)
    (h : cur.isArrayOfPointers = true) : getTypeAtIndex cur x = getTypeAtIndex cur y := by
  cases cur <;> simp_all [Ty.isArrayOfPointers, getTypeAtIndex]

/-- One iteration of the struct loop. -/
theorem structLoop_cons (baseType : Ty) (done : List Value) (value : Value) (todo : List Value)
    (flag : Bool) (inserted : List Value) :
    structLoop baseType done (value :: todo) flag inserted =
      match getIndexedType baseType (done ++ [if flag then structNewVal value else value]) with
      | none => none
      | some indexType =>
        structLoop baseType (done ++ [if flag then structNewVal value else value]) todo
          indexType.isArrayOfPointers
          (inserted ++ if flag then (insertedMul value).toList else []) := by
  cases flag with
  | false =>
    simp only [structLoop, Bool.false_eq_true, if_false, List.append_nil]
    cases getIndexedType baseType (done ++ [value]) with
    | none => rfl
    | some t => cases h : t.isArrayOfPointers <;> simp [h]
  | true =>
    cases hc : value.asConstantInt with
    | none =>
      simp only [structLoop, hc, if_true, structNewVal, insertedMul, Option.toList]
      cases getIndexedType baseType
          (done ++ [Value.mul value (ConstantInt.get value.getType 2)]) with
      | none => rfl
      | some t => cases h : t.isArrayOfPointers <;> simp [h]
    | some p =>
      simp only [structLoop, hc, if_true, structNewVal, insertedMul, Option.toList,
        List.append_nil]
      cases getIndexedType baseType
          (done ++ [ConstantInt.get value.getType
            (toUInt64 (mulInt64 (getSExtValue p.1 p.2) 2))]) with
      | none => rfl
      | some t => cases h : t.isArrayOfPointers <;> simp [h]

theorem structLoop_walk (baseType : Ty) (todo : List Value) :
    ∀ (done : List Value) (cur : Ty) (inserted : List Value), done ≠ [] →
      getIndexedType baseType done = some cur → (getIndexedTypeFrom cur todo).isSome = true →
      structLoop baseType done todo cur.isArrayOfPointers inserted =
        some (done ++ structWalk cur todo, inserted ++ structWalkInserted cur todo) := by
  induction todo with
  | nil => intro done cur inserted _ _ _; simp [structLoop, structWalk, structWalkInserted]
  | cons v rest ih =>
    intro done cur inserted hne hcur hwt
    simp only [getIndexedTypeFrom] at hwt
    cases ht : getTypeAtIndex cur v with
    | none => simp [ht] at hwt
    | some t =>
      simp only [ht, Option.some_bind] at hwt
      have hstep : getIndexedType baseType
          (done ++ [if cur.isArrayOfPointers = true then structNewVal v else v]) = some t := by
        rw [getIndexedType_snoc _ _ _ hne, hcur, Option.some_bind]
        by_cases hf : cur.isArrayOfPointers = true
        · rw [if_pos hf, getTypeAtIndex_arrayOfPointers cur _ v hf, ht]
        · rw [if_neg hf, ht]
      rw [structLoop_cons, hstep]
      simp only
      rw [ih _ t _ (by simp) hstep hwt]
      simp [structWalk, structWalkInserted, ht]

theorem structWalk_length (todo : List Value) :
    ∀ cur : Ty, (getIndexedTypeFrom cur todo).isSome = true →
      (structWalk cur todo).length = todo.length := by
  induction todo with
  | nil => intro cur _; rfl
  | cons v rest ih =>
    intro cur hwt
    simp only [getIndexedTypeFrom] at hwt
    cases ht : getTypeAtIndex cur v with
    | none => simp [ht] at hwt
    | some t =>
      simp only [ht, Option.some_bind] at hwt
      simp [structWalk, ht, ih t hwt]

theorem structWalk_getElem (todo : List Value) :
    ∀ (cur : Ty) (j : Nat) (v : Value), (getIndexedTypeFrom cur todo).isSome = true →
      todo[j]? = some v →
      (structWalk cur todo)[j]? =
        some (if (match getIndexedTypeFrom cur (todo.take j) with
                  | some t => t.isArrayOfPointers
                  | none => false) = true then structNewVal v else v) := by
  induction todo with
  | nil => intro cur j v _ h; simp at h
  | cons x rest ih =>
    intro cur j v hwt hj
    simp only [getIndexedTypeFrom] at hwt
    cases ht : getTypeAtIndex cur x with
    | none => simp [ht] at hwt
    | some t =>
      simp only [ht, Option.some_bind] at hwt
      cases j with
      | zero =>
        simp only [List.getElem?_cons_zero, Option.some.injEq] at hj
        subst hj
        simp [structWalk, getIndexedTypeFrom]
      | succ j =>
        simp only [List.getElem?_cons_succ] at hj
        simp only [structWalk, ht, List.getElem?_cons_succ, List.take_succ_cons,
          getIndexedTypeFrom, Option.some_bind]
        exact ih t j v hwt hj

/-- The doubling stage on a struct base whose indices resolve. -/
theorem doublingStage_struct (baseType : Ty) (Inst : GetElementPtrInst)
    (hs : baseType.isStructTy = true)
    (hwt : (getIndexedType baseType Inst.indices).isSome = true) :
    doublingStage baseType Inst =
      some ⟨(Inst.indices.take 1) ++ structWalk baseType (Inst.indices.drop 1), Inst.isInBounds,
        structWalkInserted baseType (Inst.indices.drop 1)⟩ := by
  have hnp : (baseType.isPointerTy || baseType.isArrayOfPointers) = false := by
    cases baseType <;> simp_all [Ty.isStructTy, Ty.isPointerTy, Ty.isArrayOfPointers]
  have hna : baseType.isArrayOfPointers = false := by
    cases baseType <;> simp_all [Ty.isStructTy, Ty.isArrayOfPointers]
  unfold doublingStage
  rw [hnp]
  simp only [Bool.false_eq_true, if_false, hs, if_true]
  cases hidx : Inst.indices with
  | nil => simp [structLoop, structWalk, structWalkInserted]
  | cons v0 rest =>
    rw [hidx] at hwt
    simp only [getIndexedType] at hwt
    have h := structLoop_walk baseType rest [v0] baseType [] (by simp) rfl hwt
    rw [hna] at h
    rw [structLoop_cons]
    simp only [Bool.false_eq_true, if_false, List.nil_append, getIndexedType, getIndexedTypeFrom,
      hna, List.append_nil]
    rw [h]
    simp

/-- C1. In the pointer-array pattern (the pointee type is a pointer or an array of pointers), an
index position that holds a non-zero constant `k` of a width `w ≤ 64` that can hold `2 * k` as a
signed value holds, after the doubling stage, a constant of the same width `w` whose value is
`2 * k`, and the in-bounds flag is false. -/
theorem pointerArray_constant_doubled (baseType : Ty) (Inst : GetElementPtrInst) (i w bits : Nat)
    (_hptr : Inst.pointerOperandType = Ty.ptr baseType)
    (hpat : (baseType.isPointerTy || baseType.isArrayOfPointers) = true)
    (hidx : Inst.indices[i]? = some (Value.constantInt w bits))
    (hw : w ≤ 64) (hk : getSExtValue w bits ≠ 0)
    (hlo : -((2 : Int) ^ (w - 1)) ≤ 2 * getSExtValue w bits)
    (hhi : 2 * getSExtValue w bits < (2 : Int) ^ (w - 1)) :
    ∃ st bits', doublingStage baseType Inst = some st ∧
      st.indices[i]? = some (Value.constantInt w bits') ∧ bits' < 2 ^ w ∧
      getSExtValue w bits' = 2 * getSExtValue w bits ∧ st.isInBounds = false := by
  have hw1 : 1 ≤ w := by
    rcases Nat.eq_zero_or_pos w with h0 | h0
    · subst h0
      exact absurd (by simp [getSExtValue, signExtend, Nat.mod_one]) hk
    · exact h0
  have hpow : (2 : Int) ^ w = 2 * (2 : Int) ^ (w - 1) := by
    have : w = (w - 1) + 1 := by omega
    conv_lhs => rw [this, pow_succ]
    ring
  have hle : (2 : Int) ^ w ≤ (2 : Int) ^ 64 := pow_le_pow_right₀ (by norm_num) hw
  have hmul : mulInt64 (getSExtValue w bits) 2 = getSExtValue w bits * 2 :=
    mulInt64_exact _ _ (by omega) (by omega)
  refine ⟨_, toUInt64 (mulInt64 (getSExtValue w bits) 2) % 2 ^ w,
    doublingStage_pointerArray baseType Inst hpat, ?_, Nat.mod_lt _ (by positivity), ?_, ?_⟩
  · simp [List.getElem?_map, hidx, pointerArrayNewVal, Value.asConstantInt, hk, Value.getType,
      ConstantInt.get]
  · rw [hmul, getSExtValue_get w _ hw (by omega) (by omega)]
    ring
  · have hmem : Value.constantInt w bits ∈ Inst.indices := List.getElem?_mem hidx
    have hnz : isZeroConstant (Value.constantInt w bits) = false := by
      simp [isZeroConstant, Value.asConstantInt, hk]
    have : Inst.indices.all isZeroConstant = false := by
      rw [List.all_eq_false]
      exact ⟨_, hmem, by simp [hnz]⟩
    simp [this]

/-- Witness for C1: pointer to an array of four pointers, indices `[0, 3]` of width 64. -/
theorem pointerArray_constant_doubled_witness :
    ∃ st bits', doublingStage (Ty.arr 4 (Ty.ptr (Ty.int 8)))
        ⟨Ty.ptr (Ty.arr 4 (Ty.ptr (Ty.int 8))),
          [Value.constantInt 64 0, Value.constantInt 64 3], true⟩ = some st ∧
      st.indices[1]? = some (Value.constantInt 64 bits') ∧ bits' < 2 ^ 64 ∧
      getSExtValue 64 bits' = 2 * getSExtValue 64 3 ∧ st.isInBounds = false :=
  pointerArray_constant_doubled (Ty.arr 4 (Ty.ptr (Ty.int 8)))
    ⟨Ty.ptr (Ty.arr 4 (Ty.ptr (Ty.int 8))),
      [Value.constantInt 64 0, Value.constantInt 64 3], true⟩ 1 64 3 rfl rfl rfl
    (by decide) (by decide) (by decide) (by decide)

/-- C2. For a well-typed address computation whose base type is a struct, the doubling stage
succeeds, keeps the number of index operands, and rewrites the operand at position `i` (counted
from zero) to its double exactly when `i ≥ 1` and the type reached by the indices before `i` is
an array of pointers; every other operand, the first index and every member selector included,
is left as it was. -/
theorem struct_doubles_after_pointer_array (baseType : Ty) (Inst : GetElementPtrInst)
    (hptr : Inst.pointerOperandType = Ty.ptr baseType)
    (hs : baseType.isStructTy = true) (hwt : Inst.wellTyped = true) :
    ∃ st, doublingStage baseType Inst = some st ∧
      st.indices.length = Inst.indices.length ∧
      ∀ (i : Nat) (v : Value), Inst.indices[i]? = some v →
        st.indices[i]? =
          some (if structSelects baseType Inst.indices i = true then structNewVal v else v) := by
  have hres : (getIndexedType baseType Inst.indices).isSome = true := by
    simpa [GetElementPtrInst.wellTyped, hptr] using hwt
  refine ⟨_, doublingStage_struct baseType Inst hs hres, ?_, ?_⟩
  · cases hidx : Inst.indices with
    | nil => simp [structWalk]
    | cons v0 rest =>
      rw [hidx] at hres
      simp only [getIndexedType] at hres
      simp [structWalk_length rest baseType hres]
  · intro i v hv
    cases hidx : Inst.indices with
    | nil => simp [hidx] at hv
    | cons v0 rest =>
      rw [hidx] at hres hv
      simp only [getIndexedType] at hres
      cases i with
      | zero =>
        simp only [List.getElem?_cons_zero, Option.some.injEq] at hv
        subst hv
        simp [structSelects]
      | succ j =>
        simp only [List.getElem?_cons_succ] at hv
        have h := structWalk_getElem rest baseType j v hres hv
        simp only [List.take_succ_cons, List.take_zero, List.drop_succ_cons, List.drop_zero,
          List.cons_append, List.nil_append, List.getElem?_cons_succ, structSelects,
          getIndexedType]
        rw [h]
        simp

/-- Witness for C2: base layout `{ i32; [4 x i8*] }`, indices `[0, 1, 3]`; the stage as a
whole gives `[0, 1, 6]`. -/
theorem struct_doubles_after_pointer_array_witness :
    (∃ st, doublingStage (Ty.struct [Ty.int 32, Ty.arr 4 (Ty.ptr (Ty.int 8))])
        ⟨Ty.ptr (Ty.struct [Ty.int 32, Ty.arr 4 (Ty.ptr (Ty.int 8))]),
          [Value.constantInt 64 0, Value.constantInt 32 1, Value.constantInt 64 3], true⟩
          = some st ∧
      st.indices.length = 3 ∧
      ∀ (i : Nat) (v : Value),
        [Value.constantInt 64 0, Value.constantInt 32 1, Value.constantInt 64 3][i]? = some v →
        st.indices[i]? =
          some (if structSelects (Ty.struct [Ty.int 32, Ty.arr 4 (Ty.ptr (Ty.int 8))])
              [Value.constantInt 64 0, Value.constantInt 32 1, Value.constantInt 64 3] i = true
            then structNewVal v else v)) ∧
    doublingStage (Ty.struct [Ty.int 32, Ty.arr 4 (Ty.ptr (Ty.int 8))])
        ⟨Ty.ptr (Ty.struct [Ty.int 32, Ty.arr 4 (Ty.ptr (Ty.int 8))]),
          [Value.constantInt 64 0, Value.constantInt 32 1, Value.constantInt 64 3], true⟩
      = some ⟨[Value.constantInt 64 0, Value.constantInt 32 1, Value.constantInt 64 6], true, []⟩ :=
  ⟨struct_doubles_after_pointer_array (Ty.struct [Ty.int 32, Ty.arr 4 (Ty.ptr (Ty.int 8))])
      ⟨Ty.ptr (Ty.struct [Ty.int 32, Ty.arr 4 (Ty.ptr (Ty.int 8))]),
        [Value.constantInt 64 0, Value.constantInt 32 1, Value.constantInt 64 3], true⟩
      rfl rfl rfl,
    by decide⟩

/-- C3, the code at the failing input: base layout `{ i32; [4 x i8*] }`, indices `[0, 1, 3]` of
width 32, in-bounds flag set.  The struct branch doubles the third index to 6 and the
instruction is still marked in-bounds after the visit. -/
theorem struct_doubling_keeps_inbounds_flag :
    visitGetElementPtrInst
        ⟨Ty.ptr (Ty.struct [Ty.int 32, Ty.arr 4 (Ty.ptr (Ty.int 8))]),
          [Value.constantInt 32 0, Value.constantInt 32 1, Value.constantInt 32 3], true⟩
      = some ⟨[Value.constantInt 32 0, Value.constantInt 32 1, Value.constantInt 32 6],
          true, []⟩ := by
  decide

/-- C4 as stated fails: it is not the case that every pointer-array-pattern address
computation with a constant-zero index has its in-bounds flag cleared by the doubling stage.
With indices `[0, 0]` and the flag set, the flag stays set. -/
theorem pointerArray_zero_clears_inbounds_fails :
    ¬ (∀ (baseType : Ty) (Inst : GetElementPtrInst) (i w : Nat),
        Inst.pointerOperandType = Ty.ptr baseType →
        (baseType.isPointerTy || baseType.isArrayOfPointers) = true →
        Inst.indices[i]? = some (Value.constantInt w 0) →
        ∃ st, doublingStage baseType Inst = some st ∧
          st.indices[i]? = some (Value.constantInt w 0) ∧ st.isInBounds = false) := by
  intro h
  obtain ⟨st, hst, _, hflag⟩ := h (Ty.arr 4 (Ty.ptr (Ty.int 8)))
    ⟨Ty.ptr (Ty.arr 4 (Ty.ptr (Ty.int 8))),
      [Value.constantInt 64 0, Value.constantInt 64 0], true⟩ 0 64 rfl rfl rfl
  have hev : doublingStage (Ty.arr 4 (Ty.ptr (Ty.int 8)))
      ⟨Ty.ptr (Ty.arr 4 (Ty.ptr (Ty.int 8))),
        [Value.constantInt 64 0, Value.constantInt 64 0], true⟩
      = some ⟨[Value.constantInt 64 0, Value.constantInt 64 0], true, []⟩ := by decide
  rw [hev] at hst
  cases hst
  simp at hflag

/-- C4, amended. In the pointer-array pattern a constant-zero index operand is still the
constant zero of the same width after the doubling stage; the in-bounds flag is false as soon
as some index operand is not a constant zero, and keeps its value when every index operand is
a constant zero. -/
theorem pointerArray_zero_unchanged (baseType : Ty) (Inst : GetElementPtrInst) (i w : Nat)
    (_hptr : Inst.pointerOperandType = Ty.ptr baseType)
    (hpat : (baseType.isPointerTy || baseType.isArrayOfPointers) = true)
    (hidx : Inst.indices[i]? = some (Value.constantInt w 0)) :
    ∃ st, doublingStage baseType Inst = some st ∧
      st.indices[i]? = some (Value.constantInt w 0) ∧
      ((∃ v ∈ Inst.indices, isZeroConstant v = false) → st.isInBounds = false) ∧
      ((∀ v ∈ Inst.indices, isZeroConstant v = true) → st.isInBounds = Inst.isInBounds) := by
  have hz : getSExtValue w 0 = 0 := by simp [getSExtValue, signExtend]
  refine ⟨_, doublingStage_pointerArray baseType Inst hpat, ?_, ?_, ?_⟩
  · simp [List.getElem?_map, hidx, pointerArrayNewVal, Value.asConstantInt, hz]
  · rintro ⟨v, hv, hnz⟩
    have : Inst.indices.all isZeroConstant = false := by
      rw [List.all_eq_false]
      exact ⟨v, hv, by simp [hnz]⟩
    simp [this]
  · intro hall
    have : Inst.indices.all isZeroConstant = true := by
      rw [List.all_eq_true]
      exact hall
    simp [this]

/-- Witness for the amended C4: pointer to an array of four pointers, indices `[0, 3]`. -/
theorem pointerArray_zero_unchanged_witness :
    ∃ st, doublingStage (Ty.arr 4 (Ty.ptr (Ty.int 8)))
        ⟨Ty.ptr (Ty.arr 4 (Ty.ptr (Ty.int 8))),
          [Value.constantInt 64 0, Value.constantInt 64 3], true⟩ = some st ∧
      st.indices[0]? = some (Value.constantInt 64 0) ∧
      ((∃ v ∈ [Value.constantInt 64 0, Value.constantInt 64 3], isZeroConstant v = false) →
        st.isInBounds = false) ∧
      ((∀ v ∈ [Value.constantInt 64 0, Value.constantInt 64 3], isZeroConstant v = true) →
        st.isInBounds = true) :=
  pointerArray_zero_unchanged (Ty.arr 4 (Ty.ptr (Ty.int 8)))
    ⟨Ty.ptr (Ty.arr 4 (Ty.ptr (Ty.int 8))),
      [Value.constantInt 64 0, Value.constantInt 64 3], true⟩ 0 64 rfl rfl rfl

/-- Nothing can be indexed after an element of an array of pointers has been selected. -/
theorem arrayOfPointers_is_last (cur : Ty) (v : Value) (rest : List Value)
    (hf : cur.isArrayOfPointers = true)
    (hwt : (getIndexedTypeFrom cur (v :: rest)).isSome = true) : rest = [] := by
  cases cur with
  | arr n e =>
    cases e with
    | ptr p =>
      cases rest with
      | nil => rfl
      | cons x xs => simp [getIndexedTypeFrom, getTypeAtIndex] at hwt
    | _ => simp [Ty.isArrayOfPointers, Ty.isPointerTy] at hf
  | _ => simp [Ty.isArrayOfPointers] at hf

theorem structWalk_selected (todo : List Value) :
    ∀ (cur : Ty) (j : Nat) (v : Value), (getIndexedTypeFrom cur todo).isSome = true →
      todo[j]? = some v →
      (match getIndexedTypeFrom cur (todo.take j) with
        | some t => t.isArrayOfPointers
        | none => false) = true →
      structWalkInserted cur todo = (insertedMul v).toList ∧
        structWalk cur todo = todo.take j ++ [structNewVal v] := by
  induction todo with
  | nil => intro cur j v _ h; simp at h
  | cons x rest ih =>
    intro cur j v hwt hj hsel
    cases j with
    | zero =>
      simp only [List.getElem?_cons_zero, Option.some.injEq] at hj
      subst hj
      simp only [List.take_zero, getIndexedTypeFrom] at hsel
      have hrest := arrayOfPointers_is_last cur x rest hsel hwt
      subst hrest
      simp only [getIndexedTypeFrom] at hwt
      cases ht : getTypeAtIndex cur x with
      | none => simp [ht] at hwt
      | some t => simp [structWalkInserted, structWalk, hsel, ht]
    | succ j =>
      simp only [List.getElem?_cons_succ] at hj
      have hnf : cur.isArrayOfPointers = false := by
        cases hf : cur.isArrayOfPointers with
        | false => rfl
        | true =>
          have := arrayOfPointers_is_last cur x rest hf hwt
          subst this
          simp at hj
      simp only [getIndexedTypeFrom] at hwt
      cases ht : getTypeAtIndex cur x with
      | none => simp [ht] at hwt
      | some t =>
        simp only [ht, Option.some_bind] at hwt
        simp only [List.take_succ_cons, getIndexedTypeFrom, ht, Option.some_bind] at hsel
        obtain ⟨h1, h2⟩ := ih t j v hwt hj hsel
        simp [structWalkInserted, structWalk, hnf, ht, h1, h2]

/-- C5 as stated fails at width 1: the second operand of the inserted multiply is the constant
that `ConstantInt::get` builds for the number 2 at the width of the index, and at width 1 that
constant is 0, so no constant reading as 2 is there. -/
theorem multiply_by_constant_two_fails :
    ¬ (∀ (baseType : Ty) (Inst : GetElementPtrInst) (i : Nat) (v : Value) (w : Nat),
        Inst.pointerOperandType = Ty.ptr baseType →
        (baseType.isPointerTy || baseType.isArrayOfPointers) = true →
        Inst.indices[i]? = some v → v.asConstantInt = none → v.getType = IdxTy.int w →
        ∃ st c, doublingStage baseType Inst = some st ∧
          st.indices[i]? = some (Value.mul v (Value.constantInt w c)) ∧ c % 2 ^ w = 2) := by
  intro h
  obtain ⟨st, c, _, _, hc⟩ := h (Ty.ptr (Ty.int 8))
    ⟨Ty.ptr (Ty.ptr (Ty.int 8)), [Value.other 0 (IdxTy.int 1)], true⟩ 0
    (Value.other 0 (IdxTy.int 1)) 1 rfl rfl rfl rfl rfl
  omega

/-- C5, amended. A runtime operand `v` of width `w` at a position the doubling stage selects
is replaced by the result of one new multiply of `v` by the width-`w` constant with bit
pattern `2 mod 2 ^ w` (the constant 2 when `w ≥ 2`).  In the pointer-array pattern the
instructions inserted before the address computation are the multiplies of the earlier runtime
operands, then this multiply, then the multiplies of the later runtime operands.  In the
struct pattern (well-typed, position `i` flagged) this multiply is the only inserted
instruction and every operand before position `i`, the last one, is left as it was. -/
theorem runtime_index_gets_one_multiply :
    (∀ (baseType : Ty) (Inst : GetElementPtrInst) (i : Nat) (v : Value) (w : Nat),
      Inst.pointerOperandType = Ty.ptr baseType →
      (baseType.isPointerTy || baseType.isArrayOfPointers) = true →
      Inst.indices[i]? = some v → v.asConstantInt = none → v.getType = IdxTy.int w →
      ∃ st, doublingStage baseType Inst = some st ∧
        st.indices[i]? = some (Value.mul v (Value.constantInt w (2 % 2 ^ w))) ∧
        (2 ≤ w → 2 % 2 ^ w = 2) ∧
        st.inserted = (Inst.indices.take i).filterMap insertedMul ++
          [Value.mul v (Value.constantInt w (2 % 2 ^ w))] ++
          (Inst.indices.drop (i + 1)).filterMap insertedMul) ∧
    (∀ (baseType : Ty) (Inst : GetElementPtrInst) (i : Nat) (v : Value) (w : Nat),
      Inst.pointerOperandType = Ty.ptr baseType →
      baseType.isStructTy = true → Inst.wellTyped = true →
      structSelects baseType Inst.indices i = true →
      Inst.indices[i]? = some v → v.asConstantInt = none → v.getType = IdxTy.int w →
      ∃ st, doublingStage baseType Inst = some st ∧
        st.indices[i]? = some (Value.mul v (Value.constantInt w (2 % 2 ^ w))) ∧
        (2 ≤ w → 2 % 2 ^ w = 2) ∧
        st.inserted = [Value.mul v (Value.constantInt w (2 % 2 ^ w))] ∧
        st.indices = Inst.indices.take i ++
          [Value.mul v (Value.constantInt w (2 % 2 ^ w))]) := by
  have hpow : ∀ w : Nat, 2 ≤ w → 2 % 2 ^ w = 2 := by
    intro w hw
    apply Nat.mod_eq_of_lt
    calc 2 < 2 ^ 2 := by norm_num
      _ ≤ 2 ^ w := Nat.pow_le_pow_right (by norm_num) hw
  constructor
  · intro baseType Inst i v w _ hpat hidx hc hty
    have hm : insertedMul v = some (Value.mul v (Value.constantInt w (2 % 2 ^ w))) := by
      simp [insertedMul, hc, hty, ConstantInt.get]
    have hn : pointerArrayNewVal v = Value.mul v (Value.constantInt w (2 % 2 ^ w)) := by
      simp [pointerArrayNewVal, hc, hty, ConstantInt.get]
    have hlt : i < Inst.indices.length := by
      rcases Nat.lt_or_ge i Inst.indices.length with h | h
      · exact h
      · rw [List.getElem?_eq_none h] at hidx
        cases hidx
    have hget : Inst.indices[i] = v := by
      rw [List.getElem?_eq_getElem hlt] at hidx
      exact Option.some.inj hidx
    refine ⟨_, doublingStage_pointerArray baseType Inst hpat, ?_, hpow w, ?_⟩
    · simp [List.getElem?_map, hidx, hn]
    · have hsplit : Inst.indices = Inst.indices.take i ++ v :: Inst.indices.drop (i + 1) := by
        rw [← hget, ← List.drop_eq_getElem_cons hlt, List.take_append_drop]
      show Inst.indices.filterMap insertedMul = _
      conv_lhs => rw [hsplit]
      simp [List.filterMap_append, List.filterMap_cons, hm]
  · intro baseType Inst i v w hptr hs hwt hsel hidx hc hty
    have hm : insertedMul v = some (Value.mul v (Value.constantInt w (2 % 2 ^ w))) := by
      simp [insertedMul, hc, hty, ConstantInt.get]
    have hn : structNewVal v = Value.mul v (Value.constantInt w (2 % 2 ^ w)) := by
      simp [structNewVal, hc, hty, ConstantInt.get]
    have hres : (getIndexedType baseType Inst.indices).isSome = true := by
      simpa [GetElementPtrInst.wellTyped, hptr] using hwt
    have hstage := doublingStage_struct baseType Inst hs hres
    cases hI : Inst.indices with
    | nil => simp [hI] at hidx
    | cons v0 rest =>
      rw [hI] at hidx hsel hres hstage
      cases i with
      | zero => simp [structSelects] at hsel
      | succ j =>
        simp only [List.getElem?_cons_succ] at hidx
        simp only [structSelects, List.take_succ_cons, getIndexedType] at hsel
        simp only [getIndexedType] at hres
        have hsel2 : (match getIndexedTypeFrom baseType (List.take j rest) with
            | some t => t.isArrayOfPointers
            | none => false) = true := by simpa using hsel
        obtain ⟨h1, h2⟩ := structWalk_selected rest baseType j v hres hidx hsel2
        refine ⟨_, hstage, ?_, hpow w, ?_, ?_⟩
        · simp only [List.take_succ_cons, List.take_zero, List.drop_succ_cons, List.drop_zero,
            List.cons_append, List.nil_append, List.getElem?_cons_succ, h2, hn]
          have hjl : j ≤ rest.length := by
            rcases Nat.lt_or_ge j rest.length with h | h
            · exact Nat.le_of_lt h
            · rw [List.getElem?_eq_none h] at hidx
              cases hidx
          rw [List.getElem?_append_right (by simp [List.length_take, hjl])]
          simp [List.length_take, hjl]
        · simp [h1, hm]
        · simp [h2, hn]

/-- Witness for the amended C5: a runtime 64-bit index into an array of four pointers, and a
runtime 64-bit index into the pointer-array member of `{ i32; [4 x i8*] }`. -/
theorem runtime_index_gets_one_multiply_witness :
    (∃ st, doublingStage (Ty.arr 4 (Ty.ptr (Ty.int 8)))
        ⟨Ty.ptr (Ty.arr 4 (Ty.ptr (Ty.int 8))),
          [Value.constantInt 64 0, Value.other 7 (IdxTy.int 64)], true⟩ = some st ∧
      st.indices[1]? =
        some (Value.mul (Value.other 7 (IdxTy.int 64)) (Value.constantInt 64 (2 % 2 ^ 64))) ∧
      (2 ≤ 64 → 2 % 2 ^ 64 = 2) ∧
      st.inserted = ([Value.constantInt 64 0, Value.other 7 (IdxTy.int 64)].take 1).filterMap
          insertedMul ++
        [Value.mul (Value.other 7 (IdxTy.int 64)) (Value.constantInt 64 (2 % 2 ^ 64))] ++
        ([Value.constantInt 64 0, Value.other 7 (IdxTy.int 64)].drop (1 + 1)).filterMap
          insertedMul) ∧
    (∃ st, doublingStage (Ty.struct [Ty.int 32, Ty.arr 4 (Ty.ptr (Ty.int 8))])
        ⟨Ty.ptr (Ty.struct [Ty.int 32, Ty.arr 4 (Ty.ptr (Ty.int 8))]),
          [Value.constantInt 64 0, Value.constantInt 32 1, Value.other 7 (IdxTy.int 64)],
          true⟩ = some st ∧
      st.indices[2]? =
        some (Value.mul (Value.other 7 (IdxTy.int 64)) (Value.constantInt 64 (2 % 2 ^ 64))) ∧
      (2 ≤ 64 → 2 % 2 ^ 64 = 2) ∧
      st.inserted =
        [Value.mul (Value.other 7 (IdxTy.int 64)) (Value.constantInt 64 (2 % 2 ^ 64))] ∧
      st.indices =
        [Value.constantInt 64 0, Value.constantInt 32 1, Value.other 7 (IdxTy.int 64)].take 2 ++
          [Value.mul (Value.other 7 (IdxTy.int 64)) (Value.constantInt 64 (2 % 2 ^ 64))]) :=
  ⟨runtime_index_gets_one_multiply.1 (Ty.arr 4 (Ty.ptr (Ty.int 8)))
      ⟨Ty.ptr (Ty.arr 4 (Ty.ptr (Ty.int 8))),
        [Value.constantInt 64 0, Value.other 7 (IdxTy.int 64)], true⟩ 1
      (Value.other 7 (IdxTy.int 64)) 64 rfl rfl rfl rfl rfl,
    runtime_index_gets_one_multiply.2 (Ty.struct [Ty.int 32, Ty.arr 4 (Ty.ptr (Ty.int 8))])
      ⟨Ty.ptr (Ty.struct [Ty.int 32, Ty.arr 4 (Ty.ptr (Ty.int 8))]),
        [Value.constantInt 64 0, Value.constantInt 32 1, Value.other 7 (IdxTy.int 64)], true⟩ 2
      (Value.other 7 (IdxTy.int 64)) 64 rfl rfl rfl rfl rfl rfl rfl⟩

/-! ## The narrowing stage and the types of the operands -/

theorem narrowingStage_i64 (st : Rewritten) (first : Value)
    (hfirst : st.indices.head? = some first) (h64 : first.getType = IdxTy.int 64) :
    narrowingStage st =
      some ⟨st.indices.map narrowNewVal, st.isInBounds,
        st.inserted ++ st.indices.filterMap insertedTrunc⟩ := by
  unfold narrowingStage
  cases hI : st.indices with
  | nil => simp [hI] at hfirst
  | cons f rest =>
    rw [hI] at hfirst
    simp only [List.head?_cons, Option.some.injEq] at hfirst
    subst hfirst
    simp [h64, narrowLoop_eq]

theorem narrowingStage_not_i64 (st : Rewritten) (first : Value)
    (hfirst : st.indices.head? = some first) (h64 : first.getType ≠ IdxTy.int 64) :
    narrowingStage st = some st := by
  unfold narrowingStage
  cases hI : st.indices with
  | nil => simp [hI] at hfirst
  | cons f rest =>
    rw [hI] at hfirst
    simp only [List.head?_cons, Option.some.injEq] at hfirst
    subst hfirst
    simp [h64]

theorem narrowNewVal_getType (v : Value) : (narrowNewVal v).getType = IdxTy.int 32 := by
  unfold narrowNewVal
  cases v.asConstantInt <;> simp [ConstantInt.get, Value.getType]

theorem pointerArrayNewVal_getType (v : Value) : (pointerArrayNewVal v).getType = v.getType := by
  unfold pointerArrayNewVal
  cases hc : v.asConstantInt with
  | none => simp [Value.getType]
  | some p =>
    simp only
    split
    · rfl
    · cases hty : v.getType <;> simp [ConstantInt.get, Value.getType]

theorem structNewVal_getType (v : Value) : (structNewVal v).getType = v.getType := by
  unfold structNewVal
  cases hc : v.asConstantInt with
  | none => simp [Value.getType]
  | some p => cases hty : v.getType <;> simp [ConstantInt.get, Value.getType]

theorem insertedMul_isTrunc (v m : Value) (h : insertedMul v = some m) : m.isTrunc = false := by
  unfold insertedMul at h
  cases hc : v.asConstantInt with
  | none =>
    simp only [hc, Option.some.injEq] at h
    subst h
    rfl
  | some p => simp [hc] at h

theorem insertedTrunc_isMul (v m : Value) (h : insertedTrunc v = some m) : m.isMul = false := by
  unfold insertedTrunc at h
  cases hc : v.asConstantInt with
  | none =>
    simp only [hc, Option.some.injEq] at h
    subst h
    rfl
  | some p => simp [hc] at h

theorem structWalk_types (todo : List Value) :
    ∀ cur : Ty, (getIndexedTypeFrom cur todo).isSome = true →
      (structWalk cur todo).map Value.getType = todo.map Value.getType := by
  induction todo with
  | nil => intro cur _; rfl
  | cons v rest ih =>
    intro cur hwt
    simp only [getIndexedTypeFrom] at hwt
    cases ht : getTypeAtIndex cur v with
    | none => simp [ht] at hwt
    | some t =>
      simp only [ht, Option.some_bind] at hwt
      simp only [structWalk, ht, List.map_cons, ih t hwt]
      by_cases hf : cur.isArrayOfPointers = true
      · simp [hf, structNewVal_getType]
      · simp [hf]

theorem structWalkInserted_isTrunc (todo : List Value) :
    ∀ (cur : Ty) (x : Value), x ∈ structWalkInserted cur todo → x.isTrunc = false := by
  induction todo with
  | nil => intro cur x hx; simp [structWalkInserted] at hx
  | cons v rest ih =>
    intro cur x hx
    simp only [structWalkInserted, List.mem_append] at hx
    rcases hx with hx | hx
    · by_cases hf : cur.isArrayOfPointers = true
      · simp only [hf, if_true, Option.mem_toList, Option.mem_def] at hx
        exact insertedMul_isTrunc v x hx
      · simp [hf] at hx
    · cases ht : getTypeAtIndex cur v with
      | none => simp [ht] at hx
      | some t =>
        simp only [ht] at hx
        exact ih t x hx

/-- On indices that resolve, the doubling stage succeeds, keeps the type of every operand and
inserts no truncation. -/
theorem doublingStage_wellTyped (baseType : Ty) (Inst : GetElementPtrInst)
    (hres : (getIndexedType baseType Inst.indices).isSome = true) :
    ∃ st, doublingStage baseType Inst = some st ∧
      st.indices.map Value.getType = Inst.indices.map Value.getType ∧
      (∀ x ∈ st.inserted, x.isTrunc = false) := by
  by_cases hpat : (baseType.isPointerTy || baseType.isArrayOfPointers) = true
  · refine ⟨_, doublingStage_pointerArray baseType Inst hpat, ?_, ?_⟩
    · simp [List.map_map, Function.comp_def, pointerArrayNewVal_getType]
    · intro x hx
      simp only [List.mem_filterMap] at hx
      obtain ⟨v, _, hv⟩ := hx
      exact insertedMul_isTrunc v x hv
  · by_cases hs : baseType.isStructTy = true
    · refine ⟨_, doublingStage_struct baseType Inst hs hres, ?_, ?_⟩
      · cases hI : Inst.indices with
        | nil => simp [structWalk]
        | cons v0 rest =>
          rw [hI] at hres
          simp only [getIndexedType] at hres
          simp [structWalk_types rest baseType hres]
      · intro x hx
        exact structWalkInserted_isTrunc _ baseType x hx
    · refine ⟨⟨Inst.indices, Inst.isInBounds, []⟩, ?_, rfl, ?_⟩
      · unfold doublingStage
        rw [if_neg hpat, if_neg hs]
      · intro x hx
        simp at hx

theorem head_getType_of_map_eq (xs ys : List Value) (y : Value)
    (h : xs.map Value.getType = ys.map Value.getType) (hy : ys.head? = some y) :
    ∃ x, xs.head? = some x ∧ x.getType = y.getType := by
  cases ys with
  | nil => simp at hy
  | cons b bs =>
    cases xs with
    | nil => simp at h
    | cons a as =>
      simp only [List.head?_cons, Option.some.injEq] at hy
      subst hy
      simp only [List.map_cons, List.cons.injEq] at h
      exact ⟨a, rfl, h.1⟩

/-- C6. When the first index operand, as it stands after the doubling stage, has type `i64`,
the visit returns; afterwards every index operand has type `i32`; an operand that was a
constant whose value fits 32 signed bits is a 32-bit constant with the same value; an operand
that was not a constant is the result of a truncation to `i32` of that operand; and the
truncations, one for each such operand in operand order, are inserted after whatever the
doubling stage inserted.  The base type plays no part, and the in-bounds flag is the one the
doubling stage left. -/
theorem narrowing_when_first_index_is_i64 (baseType : Ty) (Inst : GetElementPtrInst)
    (st : Rewritten) (first : Value)
    (hptr : Inst.pointerOperandType = Ty.ptr baseType)
    (hst : doublingStage baseType Inst = some st)
    (hfirst : st.indices.head? = some first) (h64 : first.getType = IdxTy.int 64) :
    ∃ r, visitGetElementPtrInst Inst = some r ∧
      r.indices.length = st.indices.length ∧
      r.isInBounds = st.isInBounds ∧
      (∀ (i : Nat) (x : Value), r.indices[i]? = some x → x.getType = IdxTy.int 32) ∧
      (∀ (i w bits : Nat), st.indices[i]? = some (Value.constantInt w bits) →
        -((2 : Int) ^ 31) ≤ getSExtValue w bits → getSExtValue w bits < (2 : Int) ^ 31 →
        ∃ bits', r.indices[i]? = some (Value.constantInt 32 bits') ∧ bits' < 2 ^ 32 ∧
          getSExtValue 32 bits' = getSExtValue w bits) ∧
      (∀ (i : Nat) (v : Value), st.indices[i]? = some v → v.asConstantInt = none →
        r.indices[i]? = some (Value.trunc v (IdxTy.int 32))) ∧
      r.inserted = st.inserted ++ st.indices.filterMap insertedTrunc := by
  have hvisit : visitGetElementPtrInst Inst =
      some ⟨st.indices.map narrowNewVal, st.isInBounds,
        st.inserted ++ st.indices.filterMap insertedTrunc⟩ := by
    unfold visitGetElementPtrInst
    rw [hptr]
    simp only [hst]
    exact narrowingStage_i64 st first hfirst h64
  refine ⟨_, hvisit, by simp, rfl, ?_, ?_, ?_, rfl⟩
  · intro i x hx
    simp only [List.getElem?_map, Option.map_eq_some'] at hx
    obtain ⟨v, _, hv⟩ := hx
    rw [← hv]
    exact narrowNewVal_getType v
  · intro i w bits hi hlo hhi
    refine ⟨toUInt64 (getSExtValue w bits) % 2 ^ 32, ?_, Nat.mod_lt _ (by positivity), ?_⟩
    · simp [List.getElem?_map, hi, narrowNewVal, Value.asConstantInt, ConstantInt.get]
    · exact getSExtValue_get 32 _ (by norm_num) (by omega) (by omega)
  · intro i v hi hc
    simp [List.getElem?_map, hi, narrowNewVal, hc]

/-- Witness for C6: pointer to an array of four pointers, indices `[0, %x]` of type `i64`;
the doubling stage has replaced `%x` by a multiply, which the narrowing then truncates. -/
theorem narrowing_when_first_index_is_i64_witness :
    ∃ r, visitGetElementPtrInst
        ⟨Ty.ptr (Ty.arr 4 (Ty.ptr (Ty.int 8))),
          [Value.constantInt 64 0, Value.other 7 (IdxTy.int 64)], true⟩ = some r ∧
      r.indices.length =
        [Value.constantInt 64 0,
          Value.mul (Value.other 7 (IdxTy.int 64)) (Value.constantInt 64 2)].length ∧
      r.isInBounds = false ∧
      (∀ (i : Nat) (x : Value), r.indices[i]? = some x → x.getType = IdxTy.int 32) ∧
      (∀ (i w bits : Nat),
        [Value.constantInt 64 0,
          Value.mul (Value.other 7 (IdxTy.int 64)) (Value.constantInt 64 2)][i]?
            = some (Value.constantInt w bits) →
        -((2 : Int) ^ 31) ≤ getSExtValue w bits → getSExtValue w bits < (2 : Int) ^ 31 →
        ∃ bits', r.indices[i]? = some (Value.constantInt 32 bits') ∧ bits' < 2 ^ 32 ∧
          getSExtValue 32 bits' = getSExtValue w bits) ∧
      (∀ (i : Nat) (v : Value),
        [Value.constantInt 64 0,
          Value.mul (Value.other 7 (IdxTy.int 64)) (Value.constantInt 64 2)][i]? = some v →
        v.asConstantInt = none → r.indices[i]? = some (Value.trunc v (IdxTy.int 32))) ∧
      r.inserted =
        [Value.mul (Value.other 7 (IdxTy.int 64)) (Value.constantInt 64 2)] ++
          [Value.constantInt 64 0,
            Value.mul (Value.other 7 (IdxTy.int 64)) (Value.constantInt 64 2)].filterMap
            insertedTrunc :=
  narrowing_when_first_index_is_i64 (Ty.arr 4 (Ty.ptr (Ty.int 8)))
    ⟨Ty.ptr (Ty.arr 4 (Ty.ptr (Ty.int 8))),
      [Value.constantInt 64 0, Value.other 7 (IdxTy.int 64)], true⟩
    ⟨[Value.constantInt 64 0,
        Value.mul (Value.other 7 (IdxTy.int 64)) (Value.constantInt 64 2)], false,
      [Value.mul (Value.other 7 (IdxTy.int 64)) (Value.constantInt 64 2)]⟩
    (Value.constantInt 64 0) rfl (by decide) rfl rfl

theorem visit_non_pointer (Inst : GetElementPtrInst)
    (hnp : ∀ baseType : Ty, Inst.pointerOperandType ≠ Ty.ptr baseType) :
    visitGetElementPtrInst Inst = some ⟨Inst.indices, Inst.isInBounds, []⟩ := by
  unfold visitGetElementPtrInst
  cases hp : Inst.pointerOperandType with
  | ptr baseType => exact absurd hp (hnp baseType)
  | _ => rfl

/-- C7. For a well-typed address computation whose first index operand does not have type
`i64`, the visit returns, inserts no truncation, and leaves every index operand with the type
it had before, whatever the types of the later operands. -/
theorem no_narrowing_when_first_index_not_i64 (Inst : GetElementPtrInst) (first : Value)
    (hwt : Inst.wellTyped = true)
    (hfirst : Inst.indices.head? = some first) (h64 : first.getType ≠ IdxTy.int 64) :
    ∃ r, visitGetElementPtrInst Inst = some r ∧
      (∀ x ∈ r.inserted, x.isTrunc = false) ∧
      r.indices.map Value.getType = Inst.indices.map Value.getType := by
  cases hp : Inst.pointerOperandType with
  | ptr baseType =>
    have hres : (getIndexedType baseType Inst.indices).isSome = true := by
      simpa [GetElementPtrInst.wellTyped, hp] using hwt
    obtain ⟨st, hst, htypes, hins⟩ := doublingStage_wellTyped baseType Inst hres
    obtain ⟨f, hf, hfty⟩ := head_getType_of_map_eq _ _ first htypes hfirst
    refine ⟨st, ?_, hins, htypes⟩
    unfold visitGetElementPtrInst
    rw [hp]
    simp only [hst]
    exact narrowingStage_not_i64 st f hf (by rw [hfty]; exact h64)
  | int w =>
    exact ⟨_, visit_non_pointer Inst (by intro b h; rw [hp] at h; cases h), by simp, rfl⟩
  | other id =>
    exact ⟨_, visit_non_pointer Inst (by intro b h; rw [hp] at h; cases h), by simp, rfl⟩
  | arr n e =>
    exact ⟨_, visit_non_pointer Inst (by intro b h; rw [hp] at h; cases h), by simp, rfl⟩
  | vec n e =>
    exact ⟨_, visit_non_pointer Inst (by intro b h; rw [hp] at h; cases h), by simp, rfl⟩
  | struct fs =>
    exact ⟨_, visit_non_pointer Inst (by intro b h; rw [hp] at h; cases h), by simp, rfl⟩

/-- Witness for C7: base layout `{ i32; [4 x i32] }`, indices `[i32 0, i32 1, i64 %x]`: the
64-bit third index stays 64 bits wide. -/
theorem no_narrowing_when_first_index_not_i64_witness :
    ∃ r, visitGetElementPtrInst
        ⟨Ty.ptr (Ty.struct [Ty.int 32, Ty.arr 4 (Ty.int 32)]),
          [Value.constantInt 32 0, Value.constantInt 32 1, Value.other 7 (IdxTy.int 64)],
          true⟩ = some r ∧
      (∀ x ∈ r.inserted, x.isTrunc = false) ∧
      r.indices.map Value.getType =
        [Value.constantInt 32 0, Value.constantInt 32 1,
          Value.other 7 (IdxTy.int 64)].map Value.getType :=
  no_narrowing_when_first_index_not_i64
    ⟨Ty.ptr (Ty.struct [Ty.int 32, Ty.arr 4 (Ty.int 32)]),
      [Value.constantInt 32 0, Value.constantInt 32 1, Value.other 7 (IdxTy.int 64)], true⟩
    (Value.constantInt 32 0) rfl rfl (by decide)

/-- C8. When the base type is neither a pointer, nor an array of pointers, nor a struct, the
doubling stage returns the instruction as it was and inserts nothing, whatever lies deeper in
the type; with at least one index the visit returns, the in-bounds flag is unchanged, no
multiply is inserted, and the narrowing sweep runs exactly when the first index has type
`i64`. -/
theorem other_base_type_not_doubled (baseType : Ty) (Inst : GetElementPtrInst)
    (hptr : Inst.pointerOperandType = Ty.ptr baseType)
    (hnp : baseType.isPointerTy = false) (hna : baseType.isArrayOfPointers = false)
    (hns : baseType.isStructTy = false) :
    doublingStage baseType Inst = some ⟨Inst.indices, Inst.isInBounds, []⟩ ∧
      ∀ first : Value, Inst.indices.head? = some first →
        ∃ r, visitGetElementPtrInst Inst = some r ∧
          r.isInBounds = Inst.isInBounds ∧
          (∀ x ∈ r.inserted, x.isMul = false) ∧
          (first.getType = IdxTy.int 64 →
            r.indices = Inst.indices.map narrowNewVal ∧
            r.inserted = Inst.indices.filterMap insertedTrunc) ∧
          (first.getType ≠ IdxTy.int 64 → r.indices = Inst.indices ∧ r.inserted = []) := by
  have hst : doublingStage baseType Inst = some ⟨Inst.indices, Inst.isInBounds, []⟩ := by
    simp [doublingStage, hnp, hna, hns]
  refine ⟨hst, ?_⟩
  intro first hfirst
  by_cases h64 : first.getType = IdxTy.int 64
  · refine ⟨⟨Inst.indices.map narrowNewVal, Inst.isInBounds,
      [] ++ Inst.indices.filterMap insertedTrunc⟩, ?_, rfl, ?_, ?_, ?_⟩
    · unfold visitGetElementPtrInst
      rw [hptr]
      simp only [hst]
      exact narrowingStage_i64 _ first hfirst h64
    · intro x hx
      simp only [List.nil_append, List.mem_filterMap] at hx
      obtain ⟨v, _, hv⟩ := hx
      exact insertedTrunc_isMul v x hv
    · intro _
      exact ⟨rfl, by simp⟩
    · intro h
      exact absurd h64 h
  · refine ⟨⟨Inst.indices, Inst.isInBounds, []⟩, ?_, rfl, by simp, ?_, ?_⟩
    · unfold visitGetElementPtrInst
      rw [hptr]
      simp only [hst]
      exact narrowingStage_not_i64 _ first hfirst h64
    · intro h
      exact absurd h h64
    · intro _
      exact ⟨rfl, rfl⟩

/-- Witness for C8: pointer to `i32`, index `[5]` of width 64, in-bounds flag set; the visit
as a whole gives the index `[5]` of width 32 with the flag still set. -/
theorem other_base_type_not_doubled_witness :
    (doublingStage (Ty.int 32) ⟨Ty.ptr (Ty.int 32), [Value.constantInt 64 5], true⟩
        = some ⟨[Value.constantInt 64 5], true, []⟩ ∧
      ∀ first : Value, [Value.constantInt 64 5].head? = some first →
        ∃ r, visitGetElementPtrInst ⟨Ty.ptr (Ty.int 32), [Value.constantInt 64 5], true⟩
            = some r ∧
          r.isInBounds = true ∧
          (∀ x ∈ r.inserted, x.isMul = false) ∧
          (first.getType = IdxTy.int 64 →
            r.indices = [Value.constantInt 64 5].map narrowNewVal ∧
            r.inserted = [Value.constantInt 64 5].filterMap insertedTrunc) ∧
          (first.getType ≠ IdxTy.int 64 →
            r.indices = [Value.constantInt 64 5] ∧ r.inserted = [])) ∧
    visitGetElementPtrInst ⟨Ty.ptr (Ty.int 32), [Value.constantInt 64 5], true⟩
      = some ⟨[Value.constantInt 32 5], true, []⟩ :=
  ⟨other_base_type_not_doubled (Ty.int 32)
      ⟨Ty.ptr (Ty.int 32), [Value.constantInt 64 5], true⟩ rfl rfl rfl rfl,
    by decide⟩

/-- C10. When the pointer operand does not have a pointer type (a vector of pointers, say), the
visit returns and leaves everything as it was: the index operands, the in-bounds flag, and
nothing inserted. -/
theorem non_pointer_operand_untouched (Inst : GetElementPtrInst)
    (hnp : ∀ baseType : Ty, Inst.pointerOperandType ≠ Ty.ptr baseType) :
    visitGetElementPtrInst Inst = some ⟨Inst.indices, Inst.isInBounds, []⟩ := by
  cases hp : Inst.pointerOperandType with
  | ptr baseType => exact absurd hp (hnp baseType)
  | _ => simp [visitGetElementPtrInst, hp]

/-- Witness for C10: a vector of four pointers with one constant index of width 64. -/
theorem non_pointer_operand_untouched_witness :
    visitGetElementPtrInst ⟨Ty.vec 4 (Ty.ptr (Ty.int 8)), [Value.constantInt 64 3], true⟩
      = some ⟨[Value.constantInt 64 3], true, []⟩ :=
  non_pointer_operand_untouched
    ⟨Ty.vec 4 (Ty.ptr (Ty.int 8)), [Value.constantInt 64 3], true⟩
    (by intro baseType h; cases h)

/-- C9 as stated fails: with indices `[0, 0]` of width 64 into an array of four pointers and
the in-bounds flag set, the visit narrows both zeros and the flag stays set. -/
theorem doubling_then_narrowing_clears_inbounds_fails :
    ¬ (∀ (baseType : Ty) (Inst : GetElementPtrInst) (ks : List Nat),
        Inst.pointerOperandType = Ty.ptr baseType →
        (baseType.isPointerTy || baseType.isArrayOfPointers) = true →
        Inst.indices = ks.map (Value.constantInt 64) → ks ≠ [] →
        (∀ k ∈ ks, -((2 : Int) ^ 31) ≤ 2 * getSExtValue 64 k ∧
          2 * getSExtValue 64 k < (2 : Int) ^ 31) →
        ∃ r, visitGetElementPtrInst Inst = some r ∧
          (∀ (i k : Nat), ks[i]? = some k →
            ∃ bits', r.indices[i]? = some (Value.constantInt 32 bits') ∧
              getSExtValue 32 bits' = 2 * getSExtValue 64 k) ∧
          r.isInBounds = false) := by
  intro h
  obtain ⟨r, hr, _, hflag⟩ := h (Ty.arr 4 (Ty.ptr (Ty.int 8)))
    ⟨Ty.ptr (Ty.arr 4 (Ty.ptr (Ty.int 8))),
      [Value.constantInt 64 0, Value.constantInt 64 0], true⟩ [0, 0] rfl rfl rfl
    (by simp) (by decide)
  have hev : visitGetElementPtrInst
      ⟨Ty.ptr (Ty.arr 4 (Ty.ptr (Ty.int 8))),
        [Value.constantInt 64 0, Value.constantInt 64 0], true⟩
      = some ⟨[Value.constantInt 32 0, Value.constantInt 32 0], true, []⟩ := by decide
  rw [hev] at hr
  cases hr
  simp at hflag

/-- Doubling then narrowing one 64-bit constant whose double fits 32 signed bits. -/
theorem narrow_double_constant (k : Nat)
    (hlo : -((2 : Int) ^ 31) ≤ 2 * getSExtValue 64 k)
    (hhi : 2 * getSExtValue 64 k < (2 : Int) ^ 31) :
    ∃ bits', narrowNewVal (pointerArrayNewVal (Value.constantInt 64 k))
        = Value.constantInt 32 bits' ∧ bits' < 2 ^ 32 ∧
      getSExtValue 32 bits' = 2 * getSExtValue 64 k := by
  by_cases hz : getSExtValue 64 k = 0
  · refine ⟨toUInt64 (getSExtValue 64 k) % 2 ^ 32, ?_, Nat.mod_lt _ (by positivity), ?_⟩
    · simp [pointerArrayNewVal, narrowNewVal, Value.asConstantInt, hz, ConstantInt.get]
    · rw [getSExtValue_get 32 _ (by norm_num) (by omega) (by omega)]
      omega
  · have hmul : mulInt64 (getSExtValue 64 k) 2 = getSExtValue 64 k * 2 :=
      mulInt64_exact _ _ (by omega) (by omega)
    have hback : getSExtValue 64 (toUInt64 (getSExtValue 64 k * 2) % 2 ^ 64)
        = getSExtValue 64 k * 2 :=
      getSExtValue_get 64 _ (le_refl 64) (by omega) (by omega)
    refine ⟨toUInt64 (getSExtValue 64 k * 2) % 2 ^ 32, ?_, Nat.mod_lt _ (by positivity), ?_⟩
    · simp only [pointerArrayNewVal, Value.asConstantInt, hz, if_false, Value.getType,
        ConstantInt.get, narrowNewVal, hmul, hback]
    · rw [getSExtValue_get 32 _ (by norm_num) (by omega) (by omega)]
      ring

/-- C9, amended. In the pointer-array pattern with at least one index, all indices 64-bit
constants `k_i` whose doubles fit 32 signed bits: the visit returns, inserts nothing, and
leaves the 32-bit constants `2 * k_i` as index operands; the in-bounds flag is false as soon
as some `k_i` is not zero, and keeps its value when every `k_i` is zero. -/
theorem doubling_then_narrowing_constants (baseType : Ty) (Inst : GetElementPtrInst)
    (ks : List Nat)
    (hptr : Inst.pointerOperandType = Ty.ptr baseType)
    (hpat : (baseType.isPointerTy || baseType.isArrayOfPointers) = true)
    (hidx : Inst.indices = ks.map (Value.constantInt 64)) (hne : ks ≠ [])
    (hrep : ∀ k ∈ ks, -((2 : Int) ^ 31) ≤ 2 * getSExtValue 64 k ∧
      2 * getSExtValue 64 k < (2 : Int) ^ 31) :
    ∃ r, visitGetElementPtrInst Inst = some r ∧
      r.indices.length = ks.length ∧ r.inserted = [] ∧
      (∀ (i k : Nat), ks[i]? = some k →
        ∃ bits', r.indices[i]? = some (Value.constantInt 32 bits') ∧ bits' < 2 ^ 32 ∧
          getSExtValue 32 bits' = 2 * getSExtValue 64 k) ∧
      ((∃ k ∈ ks, getSExtValue 64 k ≠ 0) → r.isInBounds = false) ∧
      ((∀ k ∈ ks, getSExtValue 64 k = 0) → r.isInBounds = Inst.isInBounds) := by
  have hstage := doublingStage_pointerArray baseType Inst hpat
  have hnoMul : Inst.indices.filterMap insertedMul = [] := by
    rw [hidx, List.filterMap_eq_nil_iff]
    intro v hv
    simp only [List.mem_map] at hv
    obtain ⟨k, _, hk⟩ := hv
    rw [← hk]
    rfl
  have hnoTrunc : (Inst.indices.map pointerArrayNewVal).filterMap insertedTrunc = [] := by
    rw [hidx, List.filterMap_eq_nil_iff]
    intro v hv
    simp only [List.mem_map] at hv
    obtain ⟨_, ⟨k, hk, rfl⟩, hv⟩ := hv
    obtain ⟨b, hb, _⟩ := narrow_double_constant k (hrep k hk).1 (hrep k hk).2
    rw [← hv]
    unfold insertedTrunc
    cases hc : (pointerArrayNewVal (Value.constantInt 64 k)).asConstantInt with
    | some p => rfl
    | none =>
      simp only [narrowNewVal, hc] at hb
      cases hb
  obtain ⟨k0, krest, hks⟩ := List.exists_cons_of_ne_nil hne
  have hfirstTy : (pointerArrayNewVal (Value.constantInt 64 k0)).getType = IdxTy.int 64 := by
    rw [pointerArrayNewVal_getType]
    rfl
  have hvisit : visitGetElementPtrInst Inst =
      some ⟨(Inst.indices.map pointerArrayNewVal).map narrowNewVal,
        Inst.isInBounds && Inst.indices.all isZeroConstant, []⟩ := by
    unfold visitGetElementPtrInst
    rw [hptr]
    simp only [hstage]
    rw [narrowingStage_i64 _ (pointerArrayNewVal (Value.constantInt 64 k0))
      (by simp [hidx, hks]) hfirstTy]
    simp [hnoMul, hnoTrunc]
  refine ⟨_, hvisit, by simp [hidx], rfl, ?_, ?_, ?_⟩
  · intro i k hk
    have hkm : k ∈ ks := List.getElem?_mem hk
    obtain ⟨b, hb, hblt, hbv⟩ := narrow_double_constant k (hrep k hkm).1 (hrep k hkm).2
    refine ⟨b, ?_, hblt, hbv⟩
    simp [hidx, List.getElem?_map, hk, hb]
  · rintro ⟨k, hk, hnz⟩
    have : Inst.indices.all isZeroConstant = false := by
      rw [List.all_eq_false]
      refine ⟨Value.constantInt 64 k, ?_, ?_⟩
      · rw [hidx]
        exact List.mem_map_of_mem _ hk
      · simp [isZeroConstant, Value.asConstantInt, hnz]
    simp [this]
  · intro hall
    have : Inst.indices.all isZeroConstant = true := by
      rw [List.all_eq_true]
      intro v hv
      rw [hidx] at hv
      simp only [List.mem_map] at hv
      obtain ⟨k, hk, rfl⟩ := hv
      simp [isZeroConstant, Value.asConstantInt, hall k hk]
    simp [this]

/-- Witness for the amended C9: pointer to an array of four pointers, indices `[0, 3]` of
width 64; the visit as a whole gives `[0, 6]` of width 32 with the in-bounds flag false. -/
theorem doubling_then_narrowing_constants_witness :
    (∃ r, visitGetElementPtrInst
        ⟨Ty.ptr (Ty.arr 4 (Ty.ptr (Ty.int 8))),
          [Value.constantInt 64 0, Value.constantInt 64 3], true⟩ = some r ∧
      r.indices.length = [0, 3].length ∧ r.inserted = [] ∧
      (∀ (i k : Nat), [0, 3][i]? = some k →
        ∃ bits', r.indices[i]? = some (Value.constantInt 32 bits') ∧ bits' < 2 ^ 32 ∧
          getSExtValue 32 bits' = 2 * getSExtValue 64 k) ∧
      ((∃ k ∈ [0, 3], getSExtValue 64 k ≠ 0) → r.isInBounds = false) ∧
      ((∀ k ∈ [0, 3], getSExtValue 64 k = 0) → r.isInBounds = true)) ∧
    visitGetElementPtrInst
        ⟨Ty.ptr (Ty.arr 4 (Ty.ptr (Ty.int 8))),
          [Value.constantInt 64 0, Value.constantInt 64 3], true⟩
      = some ⟨[Value.constantInt 32 0, Value.constantInt 32 6], false, []⟩ :=
  ⟨doubling_then_narrowing_constants (Ty.arr 4 (Ty.ptr (Ty.int 8)))
      ⟨Ty.ptr (Ty.arr 4 (Ty.ptr (Ty.int 8))),
        [Value.constantInt 64 0, Value.constantInt 64 3], true⟩ [0, 3] rfl rfl rfl
      (by simp) (by decide),
    by decide⟩

/-! ## Every position is rewritten from its own operand -/

theorem structLoop_positions (baseType : Ty) (todo : List Value) :
    ∀ (done : List Value) (flag : Bool) (inserted : List Value) (r : List Value × List Value),
      structLoop baseType done todo flag inserted = some r →
      ∃ news, r.1 = done ++ news ∧
        List.Forall₂ (fun v x => x = v ∨ x = structNewVal v) todo news := by
  induction todo with
  | nil =>
    intro done flag inserted r h
    simp only [structLoop, Option.some.injEq] at h
    subst h
    exact ⟨[], by simp, List.Forall₂.nil⟩
  | cons v rest ih =>
    intro done flag inserted r h
    rw [structLoop_cons] at h
    cases ht : getIndexedType baseType (done ++ [if flag = true then structNewVal v else v]) with
    | none => simp [ht] at h
    | some t =>
      simp only [ht] at h
      obtain ⟨news, hnews, hall⟩ := ih _ _ _ r h
      refine ⟨(if flag = true then structNewVal v else v) :: news, by simp [hnews], ?_⟩
      refine List.Forall₂.cons ?_ hall
      cases flag <;> simp

theorem forall₂_map_self (f : Value → Value) (l : List Value) :
    List.Forall₂ (fun v x => x = f v) l (l.map f) := by
  induction l with
  | nil => exact List.Forall₂.nil
  | cons a l ih => exact List.Forall₂.cons rfl ih

theorem forall₂_self (l : List Value) : List.Forall₂ (fun v x => x = v) l l := by
  induction l with
  | nil => exact List.Forall₂.nil
  | cons a l ih => exact List.Forall₂.cons rfl ih

theorem forall₂_comp {R S : Value → Value → Prop} :
    ∀ {a b c : List Value}, List.Forall₂ R a b → List.Forall₂ S b c →
      List.Forall₂ (fun x z => ∃ y, R x y ∧ S y z) a c := by
  intro a b c h1
  induction h1 generalizing c with
  | nil =>
    intro h2
    cases h2
    exact List.Forall₂.nil
  | cons hr _ ih =>
    intro h2
    cases h2 with
    | cons hs h2 => exact List.Forall₂.cons ⟨_, hr, hs⟩ (ih h2)

theorem doublingStage_positions (baseType : Ty) (Inst : GetElementPtrInst) (st : Rewritten)
    (h : doublingStage baseType Inst = some st) :
    List.Forall₂ (fun v x => x = v ∨ x = pointerArrayNewVal v ∨ x = structNewVal v)
      Inst.indices st.indices := by
  unfold doublingStage at h
  split at h
  · rw [pointerArrayLoop_eq] at h
    simp only [List.nil_append, Option.some.injEq] at h
    subst h
    exact (forall₂_map_self pointerArrayNewVal Inst.indices).imp (fun _ _ e => Or.inr (Or.inl e))
  · split at h
    · cases hl : structLoop baseType [] Inst.indices false [] with
      | none => simp [hl] at h
      | some p =>
        obtain ⟨news, hn, hall⟩ := structLoop_positions baseType Inst.indices [] false [] p hl
        simp only [hl, Option.some.injEq] at h
        subst h
        simp only [List.nil_append] at hn
        simp only [hn]
        exact hall.imp (fun _ _ e => e.elim Or.inl (fun e => Or.inr (Or.inr e)))
    · simp only [Option.some.injEq] at h
      subst h
      exact (forall₂_self Inst.indices).imp (fun _ _ e => Or.inl e)

theorem narrowingStage_positions (st r : Rewritten) (h : narrowingStage st = some r) :
    List.Forall₂ (fun v x => x = v ∨ x = narrowNewVal v) st.indices r.indices ∧
      r.isInBounds = st.isInBounds := by
  unfold narrowingStage at h
  cases hI : st.indices with
  | nil => simp [hI] at h
  | cons f rest =>
    simp only [hI] at h
    split at h
    · rw [narrowLoop_eq] at h
      simp only [List.nil_append, Option.some.injEq] at h
      subst h
      exact ⟨(forall₂_map_self narrowNewVal (f :: rest)).imp (fun _ _ e => Or.inr e), rfl⟩
    · simp only [Option.some.injEq] at h
      subst h
      rw [hI]
      exact ⟨(forall₂_self (f :: rest)).imp (fun _ _ e => Or.inl e), rfl⟩

/-- The visit returns on every input of its domain. -/
theorem visit_total (Inst : GetElementPtrInst) (hdom : Inst.inDomain = true) :
    ∃ r, visitGetElementPtrInst Inst = some r := by
  unfold GetElementPtrInst.inDomain at hdom
  simp only [Bool.and_eq_true] at hdom
  obtain ⟨hwt, hidx⟩ := hdom
  cases hp : Inst.pointerOperandType with
  | ptr baseType =>
    have hres : (getIndexedType baseType Inst.indices).isSome = true := by
      simpa [GetElementPtrInst.wellTyped, hp] using hwt
    obtain ⟨st, hst, htypes, _⟩ := doublingStage_wellTyped baseType Inst hres
    simp only [hp] at hidx
    cases hI : Inst.indices with
    | nil => simp [hI] at hidx
    | cons v0 rest =>
      obtain ⟨f, hf, _⟩ := head_getType_of_map_eq st.indices Inst.indices v0 htypes (by simp [hI])
      unfold visitGetElementPtrInst
      rw [hp]
      simp only [hst]
      by_cases h64 : f.getType = IdxTy.int 64
      · exact ⟨_, narrowingStage_i64 st f hf h64⟩
      · exact ⟨_, narrowingStage_not_i64 st f hf h64⟩
  | int w => exact ⟨_, visit_non_pointer Inst (by intro b h; rw [hp] at h; cases h)⟩
  | other id => exact ⟨_, visit_non_pointer Inst (by intro b h; rw [hp] at h; cases h)⟩
  | arr n e => exact ⟨_, visit_non_pointer Inst (by intro b h; rw [hp] at h; cases h)⟩
  | vec n e => exact ⟨_, visit_non_pointer Inst (by intro b h; rw [hp] at h; cases h)⟩
  | struct fs => exact ⟨_, visit_non_pointer Inst (by intro b h; rw [hp] at h; cases h)⟩

/-- What the visit does position by position: first the doubling stage, then the narrowing. -/
theorem visit_positions (Inst : GetElementPtrInst) (r : Rewritten)
    (h : visitGetElementPtrInst Inst = some r) :
    List.Forall₂
      (fun v x => ∃ y, (y = v ∨ y = pointerArrayNewVal v ∨ y = structNewVal v) ∧
        (x = y ∨ x = narrowNewVal y))
      Inst.indices r.indices := by
  cases hp : Inst.pointerOperandType with
  | ptr baseType =>
    unfold visitGetElementPtrInst at h
    rw [hp] at h
    cases hst : doublingStage baseType Inst with
    | none => simp [hst] at h
    | some st =>
      simp only [hst] at h
      have h1 := doublingStage_positions baseType Inst st hst
      have h2 := (narrowingStage_positions st r h).1
      exact forall₂_comp h1 h2
  | _ =>
    rw [visit_non_pointer Inst (by intro b hb; rw [hp] at hb; cases hb)] at h
    simp only [Option.some.injEq] at h
    subst h
    exact (forall₂_self Inst.indices).imp (fun v x e => ⟨v, Or.inl rfl, Or.inl e⟩)

theorem forall₂_getElem {R : Value → Value → Prop} :
    ∀ {a b : List Value}, List.Forall₂ R a b →
      ∀ (i : Nat) (v x : Value), a[i]? = some v → b[i]? = some x → R v x := by
  intro a b h
  induction h with
  | nil => intro i v x hv; simp at hv
  | cons hr _ ih =>
    intro i v x hv hx
    cases i with
    | zero =>
      simp only [List.getElem?_cons_zero, Option.some.injEq] at hv hx
      subst hv
      subst hx
      exact hr
    | succ j =>
      simp only [List.getElem?_cons_succ] at hv hx
      exact ih j v x hv hx

/-- The shapes an operand can take after the visit, given the operand `v` it was rewritten
from. -/
theorem rewritten_shape (v y x : Value)
    (hy : y = v ∨ y = pointerArrayNewVal v ∨ y = structNewVal v)
    (hx : x = y ∨ x = narrowNewVal y) :
    x = v ∨ (v.asConstantInt.isSome = true ∧ x.asConstantInt.isSome = true) ∨
      x = Value.mul v (ConstantInt.get v.getType 2) ∨
      x = Value.trunc v (IdxTy.int 32) ∨
      x = Value.trunc (Value.mul v (ConstantInt.get v.getType 2)) (IdxTy.int 32) := by
  cases hc : v.asConstantInt with
  | some p =>
    have hv : ∃ w bits, v = Value.constantInt w bits := by
      cases v <;> simp [Value.asConstantInt] at hc
      exact ⟨_, _, rfl⟩
    obtain ⟨w, bits, rfl⟩ := hv
    have hyc : y.asConstantInt.isSome = true := by
      rcases hy with h | h | h
      · subst h; rfl
      · subst h
        by_cases hz : getSExtValue w bits = 0
        · simp [pointerArrayNewVal, Value.asConstantInt, hz]
        · simp [pointerArrayNewVal, Value.asConstantInt, hz, Value.getType, ConstantInt.get]
      · subst h; rfl
    have hyv : ∃ w' bits', y = Value.constantInt w' bits' := by
      cases y <;> simp [Value.asConstantInt] at hyc
      exact ⟨_, _, rfl⟩
    obtain ⟨w', bits', rfl⟩ := hyv
    right; left
    refine ⟨rfl, ?_⟩
    rcases hx with h | h
    · subst h; rfl
    · subst h; rfl
  | none =>
    have hp : pointerArrayNewVal v = Value.mul v (ConstantInt.get v.getType 2) := by
      simp [pointerArrayNewVal, hc]
    have hs : structNewVal v = Value.mul v (ConstantInt.get v.getType 2) := by
      simp [structNewVal, hc]
    rw [hp, hs] at hy
    have hy2 : y = v ∨ y = Value.mul v (ConstantInt.get v.getType 2) := by tauto
    rcases hy2 with h | h
    · subst h
      rcases hx with h | h
      · exact Or.inl h
      · right; right; right; left
        rw [h]
        simp [narrowNewVal, hc]
    · subst h
      rcases hx with h | h
      · right; right; left
        exact h
      · right; right; right; right
        rw [h]
        simp [narrowNewVal, Value.asConstantInt]

/-- C11. The visit returns on every input of its domain, and whenever it returns it leaves the
pointer operand and the number of index operands as they were; the operand at position `i`
is computed from the original operand `v` at position `i` alone (doubling of `v`, then
narrowing), so it is `v` itself, a constant made from the constant `v`, or the result of an
inserted instruction fed by `v`: the multiply of `v`, the truncation of `v`, or the truncation
of the multiply of `v`. -/
theorem visit_preserves_index_positions (Inst : GetElementPtrInst) :
    (Inst.inDomain = true → ∃ r, visitGetElementPtrInst Inst = some r) ∧
    ∀ r : Rewritten, visitGetElementPtrInst Inst = some r →
      (Inst.rewritten r).pointerOperandType = Inst.pointerOperandType ∧
      r.indices.length = Inst.indices.length ∧
      ∀ (i : Nat) (v x : Value), Inst.indices[i]? = some v → r.indices[i]? = some x →
        (∃ y, (y = v ∨ y = pointerArrayNewVal v ∨ y = structNewVal v) ∧
          (x = y ∨ x = narrowNewVal y)) ∧
        (x = v ∨ (v.asConstantInt.isSome = true ∧ x.asConstantInt.isSome = true) ∨
          x = Value.mul v (ConstantInt.get v.getType 2) ∨
          x = Value.trunc v (IdxTy.int 32) ∨
          x = Value.trunc (Value.mul v (ConstantInt.get v.getType 2)) (IdxTy.int 32)) := by
  refine ⟨visit_total Inst, ?_⟩
  intro r hr
  have hall := visit_positions Inst r hr
  refine ⟨rfl, hall.length_eq.symm, ?_⟩
  intro i v x hv hx
  obtain ⟨y, hy, hxy⟩ := forall₂_getElem hall i v x hv hx
  exact ⟨⟨y, hy, hxy⟩, rewritten_shape v y x hy hxy⟩

/-- Witness for C11: pointer to an array of four pointers, indices `[0, %x]` of type `i64`;
the second operand ends as the truncation of the multiply of `%x`. -/
theorem visit_preserves_index_positions_witness :
    (∃ r, visitGetElementPtrInst
        ⟨Ty.ptr (Ty.arr 4 (Ty.ptr (Ty.int 8))),
          [Value.constantInt 64 0, Value.other 7 (IdxTy.int 64)], true⟩ = some r) ∧
    ([Value.constantInt 32 0,
        Value.trunc (Value.mul (Value.other 7 (IdxTy.int 64)) (Value.constantInt 64 2))
          (IdxTy.int 32)].length
      = [Value.constantInt 64 0, Value.other 7 (IdxTy.int 64)].length) :=
  ⟨(visit_preserves_index_positions
      ⟨Ty.ptr (Ty.arr 4 (Ty.ptr (Ty.int 8))),
        [Value.constantInt 64 0, Value.other 7 (IdxTy.int 64)], true⟩).1 rfl,
    ((visit_preserves_index_positions
      ⟨Ty.ptr (Ty.arr 4 (Ty.ptr (Ty.int 8))),
        [Value.constantInt 64 0, Value.other 7 (IdxTy.int 64)], true⟩).2
      ⟨[Value.constantInt 32 0,
          Value.trunc (Value.mul (Value.other 7 (IdxTy.int 64)) (Value.constantInt 64 2))
            (IdxTy.int 32)], false,
        [Value.mul (Value.other 7 (IdxTy.int 64)) (Value.constantInt 64 2),
          Value.trunc (Value.mul (Value.other 7 (IdxTy.int 64)) (Value.constantInt 64 2))
            (IdxTy.int 32)]⟩ (by decide)).2.1⟩

/-! ## The driver -/

theorem visitLoop_cons (done : List Instruction) (x : Instruction) (todo : List Instruction) :
    visitLoop done (x :: todo) =
      match expandInstruction x with
      | none => none
      | some blk => visitLoop (done ++ blk) todo := by
  cases x with
  | gep Inst =>
    simp only [visitLoop, expandInstruction]
    cases visitGetElementPtrInst Inst with
    | none => rfl
    | some r => simp [List.append_assoc]
  | created v => simp [visitLoop, expandInstruction]
  | other id => simp [visitLoop, expandInstruction]

/-- The driver replaces every instruction by its own block, in order. -/
theorem visitLoop_blocks (todo : List Instruction) :
    ∀ (done R : List Instruction), visitLoop done todo = some R →
      ∃ blocks : List (List Instruction), R = done ++ blocks.flatten ∧
        List.Forall₂ (fun x blk => expandInstruction x = some blk) todo blocks := by
  induction todo with
  | nil =>
    intro done R h
    simp only [visitLoop, Option.some.injEq] at h
    exact ⟨[], by simp [h], List.Forall₂.nil⟩
  | cons x rest ih =>
    intro done R h
    rw [visitLoop_cons] at h
    cases hx : expandInstruction x with
    | none => simp [hx] at h
    | some blk =>
      simp only [hx] at h
      obtain ⟨blocks, hR, hall⟩ := ih _ R h
      exact ⟨blk :: blocks, by simp [hR, List.append_assoc], List.Forall₂.cons hx hall⟩

theorem visitLoop_of_blocks (todo : List Instruction) :
    ∀ (done : List Instruction) (blocks : List (List Instruction)),
      List.Forall₂ (fun x blk => expandInstruction x = some blk) todo blocks →
      visitLoop done todo = some (done ++ blocks.flatten) := by
  induction todo with
  | nil =>
    intro done blocks h
    cases h
    simp [visitLoop]
  | cons x rest ih =>
    intro done blocks h
    cases h with
    | cons hx hrest =>
      rw [visitLoop_cons, hx]
      simp only
      rw [ih _ _ hrest]
      simp [List.append_assoc]

theorem visitLoop_total (todo : List Instruction)
    (hdom : ∀ Inst, Instruction.gep Inst ∈ todo → Inst.inDomain = true) :
    ∀ done : List Instruction, ∃ R, visitLoop done todo = some R := by
  induction todo with
  | nil => intro done; exact ⟨done, rfl⟩
  | cons x rest ih =>
    intro done
    have hrest : ∀ Inst, Instruction.gep Inst ∈ rest → Inst.inDomain = true :=
      fun Inst h => hdom Inst (List.mem_cons_of_mem _ h)
    rw [visitLoop_cons]
    cases x with
    | gep Inst =>
      obtain ⟨r, hr⟩ := visit_total Inst (hdom Inst (List.mem_cons_self _ _))
      simp only [expandInstruction, hr]
      exact ih hrest _
    | created v => exact ih hrest _
    | other id => exact ih hrest _

theorem visitLoop_no_gep (todo : List Instruction)
    (hno : ∀ x ∈ todo, x.isGEP = false) :
    ∀ done : List Instruction, visitLoop done todo = some (done ++ todo) := by
  induction todo with
  | nil => intro done; simp [visitLoop]
  | cons x rest ih =>
    intro done
    have hrest : ∀ y ∈ rest, y.isGEP = false := fun y h => hno y (List.mem_cons_of_mem _ h)
    have hx := hno x (List.mem_cons_self _ _)
    cases x with
    | gep Inst => simp [Instruction.isGEP] at hx
    | created v => simp [visitLoop, ih hrest]
    | other id => simp [visitLoop, ih hrest]

/-- C13. `runOnFunction` reports `true` whenever it returns, it returns on every body whose
`getelementptr` instructions are in the domain of the visit, and on a body without any
`getelementptr` it returns the body as it was, with `true`. -/
theorem runOnFunction_returns_true (F : List Instruction) :
    (∀ r, runOnFunction F = some r → r.2 = true) ∧
    ((∀ Inst, Instruction.gep Inst ∈ F → Inst.inDomain = true) →
      ∃ F', runOnFunction F = some (F', true)) ∧
    ((∀ x ∈ F, x.isGEP = false) → runOnFunction F = some (F, true)) := by
  refine ⟨?_, ?_, ?_⟩
  · intro r h
    unfold runOnFunction at h
    cases hl : visitLoop [] F with
    | none => simp [hl] at h
    | some F' =>
      simp only [hl, Option.some.injEq] at h
      rw [← h]
  · intro hdom
    obtain ⟨R, hR⟩ := visitLoop_total F hdom []
    exact ⟨R, by simp [runOnFunction, hR]⟩
  · intro hno
    simp [runOnFunction, visitLoop_no_gep F hno []]

/-- Witness for C13: a body without `getelementptr`, and a body whose only `getelementptr` has
all indices zero, so that no operand is rewritten. -/
theorem runOnFunction_returns_true_witness :
    runOnFunction [Instruction.other 0, Instruction.other 1]
      = some ([Instruction.other 0, Instruction.other 1], true) ∧
    ∃ F', runOnFunction
        [Instruction.other 0,
          Instruction.gep ⟨Ty.ptr (Ty.arr 4 (Ty.ptr (Ty.int 8))),
            [Value.constantInt 32 0, Value.constantInt 32 0], true⟩]
      = some (F', true) :=
  ⟨(runOnFunction_returns_true [Instruction.other 0, Instruction.other 1]).2.2
      (by intro x hx; simp at hx; rcases hx with h | h <;> subst h <;> rfl),
    (runOnFunction_returns_true
      [Instruction.other 0,
        Instruction.gep ⟨Ty.ptr (Ty.arr 4 (Ty.ptr (Ty.int 8))),
          [Value.constantInt 32 0, Value.constantInt 32 0], true⟩]).2.1
      (by
        intro Inst h
        simp at h
        subst h
        rfl)⟩

/-! ## What the visit inserts -/

theorem insertedMul_isMul (v m : Value) (h : insertedMul v = some m) : m.isMul = true := by
  unfold insertedMul at h
  cases hc : v.asConstantInt with
  | none =>
    simp only [hc, Option.some.injEq] at h
    subst h
    rfl
  | some p => simp [hc] at h

theorem insertedTrunc_isTrunc (v m : Value) (h : insertedTrunc v = some m) :
    m.isTrunc = true := by
  unfold insertedTrunc at h
  cases hc : v.asConstantInt with
  | none =>
    simp only [hc, Option.some.injEq] at h
    subst h
    rfl
  | some p => simp [hc] at h

theorem structLoop_inserted (baseType : Ty) (todo : List Value) :
    ∀ (done : List Value) (flag : Bool) (inserted : List Value) (r : List Value × List Value),
      structLoop baseType done todo flag inserted = some r →
      ∀ x ∈ r.2, x ∈ inserted ∨ x.isMul = true := by
  induction todo with
  | nil =>
    intro done flag inserted r h x hx
    simp only [structLoop, Option.some.injEq] at h
    subst h
    exact Or.inl hx
  | cons v rest ih =>
    intro done flag inserted r h x hx
    rw [structLoop_cons] at h
    cases ht : getIndexedType baseType (done ++ [if flag = true then structNewVal v else v]) with
    | none => simp [ht] at h
    | some t =>
      simp only [ht] at h
      rcases ih _ _ _ r h x hx with h1 | h1
      · simp only [List.mem_append] at h1
        rcases h1 with h1 | h1
        · exact Or.inl h1
        · cases flag with
          | false => simp at h1
          | true =>
            simp only [if_true, Option.mem_toList, Option.mem_def] at h1
            exact Or.inr (insertedMul_isMul v x h1)
      · exact Or.inr h1

theorem doublingStage_inserted (baseType : Ty) (Inst : GetElementPtrInst) (st : Rewritten)
    (h : doublingStage baseType Inst = some st) : ∀ x ∈ st.inserted, x.isMul = true := by
  intro x hx
  unfold doublingStage at h
  split at h
  · rw [pointerArrayLoop_eq] at h
    simp only [List.nil_append, Option.some.injEq] at h
    subst h
    simp only [List.mem_filterMap] at hx
    obtain ⟨v, _, hv⟩ := hx
    exact insertedMul_isMul v x hv
  · split at h
    · cases hl : structLoop baseType [] Inst.indices false [] with
      | none => simp [hl] at h
      | some p =>
        simp only [hl, Option.some.injEq] at h
        subst h
        rcases structLoop_inserted baseType Inst.indices [] false [] p hl x hx with h1 | h1
        · simp at h1
        · exact h1
    · simp only [Option.some.injEq] at h
      subst h
      simp at hx

theorem narrowingStage_inserted (st r : Rewritten) (h : narrowingStage st = some r) :
    ∃ truncs, r.inserted = st.inserted ++ truncs ∧ ∀ x ∈ truncs, x.isTrunc = true := by
  unfold narrowingStage at h
  cases hI : st.indices with
  | nil => simp [hI] at h
  | cons f rest =>
    simp only [hI] at h
    split at h
    · rw [narrowLoop_eq] at h
      simp only [List.nil_append, Option.some.injEq] at h
      subst h
      refine ⟨(f :: rest).filterMap insertedTrunc, rfl, ?_⟩
      intro x hx
      simp only [List.mem_filterMap] at hx
      obtain ⟨v, _, hv⟩ := hx
      exact insertedTrunc_isTrunc v x hv
    · simp only [Option.some.injEq] at h
      subst h
      exact ⟨[], by simp, by simp⟩

/-- Whatever a visit inserts is a multiply or a truncation. -/
theorem visit_inserted (Inst : GetElementPtrInst) (r : Rewritten)
    (h : visitGetElementPtrInst Inst = some r) :
    ∀ x ∈ r.inserted, x.isMul = true ∨ x.isTrunc = true := by
  intro x hx
  cases hp : Inst.pointerOperandType with
  | ptr baseType =>
    unfold visitGetElementPtrInst at h
    rw [hp] at h
    cases hst : doublingStage baseType Inst with
    | none => simp [hst] at h
    | some st =>
      simp only [hst] at h
      obtain ⟨truncs, hins, htr⟩ := narrowingStage_inserted st r h
      rw [hins, List.mem_append] at hx
      rcases hx with hx | hx
      · exact Or.inl (doublingStage_inserted baseType Inst st hst x hx)
      · exact Or.inr (htr x hx)
  | _ =>
    rw [visit_non_pointer Inst (by intro b hb; rw [hp] at hb; cases hb)] at h
    simp only [Option.some.injEq] at h
    subst h
    simp at hx

theorem filter_created_map (l : List Value) :
    (l.map Instruction.created).filter (fun x => !x.isCreated) = [] := by
  induction l with
  | nil => rfl
  | cons a l ih => simp [Instruction.isCreated, ih]

theorem filter_gep_map_created (l : List Value) :
    (l.map Instruction.created).filter Instruction.isGEP = [] := by
  induction l with
  | nil => rfl
  | cons a l ih => simp [Instruction.isGEP, ih]

/-- The block the driver leaves for one instruction: inserted multiplies and truncations,
then the instruction itself up to index operands and in-bounds flag. -/
theorem expandInstruction_block (x : Instruction) (blk : List Instruction)
    (hx : x.isCreated = false) (h : expandInstruction x = some blk) :
    ∃ y, blk.filter (fun z => !z.isCreated) = [y] ∧ sameUpToIndices x y ∧
      (blk.filter Instruction.isGEP).length = ([x].filter Instruction.isGEP).length ∧
      ∀ v, Instruction.created v ∈ blk → v.isMul = true ∨ v.isTrunc = true := by
  cases x with
  | gep Inst =>
    simp only [expandInstruction] at h
    cases hr : visitGetElementPtrInst Inst with
    | none => simp [hr] at h
    | some r =>
      simp only [hr, Option.some.injEq] at h
      subst h
      refine ⟨Instruction.gep (Inst.rewritten r), ?_, rfl, ?_, ?_⟩
      · simp [List.filter_append, filter_created_map, Instruction.isCreated]
      · simp [List.filter_append, filter_gep_map_created, Instruction.isGEP]
      · intro v hv
        simp only [List.mem_append, List.mem_map, List.mem_singleton, reduceCtorEq,
          or_false] at hv
        obtain ⟨a, ha, hav⟩ := hv
        cases hav
        exact visit_inserted Inst r hr v ha
  | created v => simp [Instruction.isCreated] at hx
  | other id =>
    simp only [expandInstruction, Option.some.injEq] at h
    subst h
    exact ⟨Instruction.other id, by simp [Instruction.isCreated], rfl, rfl, by simp⟩

theorem blocks_frame (F : List Instruction) (blocks : List (List Instruction))
    (hall : List.Forall₂ (fun x blk => expandInstruction x = some blk) F blocks)
    (hin : ∀ x ∈ F, x.isCreated = false) :
    List.Forall₂ sameUpToIndices F (blocks.flatten.filter (fun z => !z.isCreated)) ∧
      (blocks.flatten.filter Instruction.isGEP).length
        = (F.filter Instruction.isGEP).length ∧
      ∀ v, Instruction.created v ∈ blocks.flatten → v.isMul = true ∨ v.isTrunc = true := by
  induction hall with
  | nil => exact ⟨List.Forall₂.nil, rfl, by simp⟩
  | @cons x blk F' blocks' hx _ ih =>
    obtain ⟨ih1, ih2, ih3⟩ := ih (fun y hy => hin y (List.mem_cons_of_mem _ hy))
    obtain ⟨y, hy1, hy2, hy3, hy4⟩ :=
      expandInstruction_block x blk (hin x (List.mem_cons_self _ _)) hx
    refine ⟨?_, ?_, ?_⟩
    · simp only [List.flatten_cons, List.filter_append, hy1, List.singleton_append]
      exact List.Forall₂.cons hy2 ih1
    · have hsplit : (x :: F').filter Instruction.isGEP
          = [x].filter Instruction.isGEP ++ F'.filter Instruction.isGEP := by
        rw [← List.filter_append]
        rfl
      simp only [List.flatten_cons, List.filter_append, List.length_append, hy3, ih2, hsplit]
    · intro v hv
      simp only [List.flatten_cons, List.mem_append] at hv
      rcases hv with hv | hv
      · exact hy4 v hv
      · exact ih3 v hv

/-- C12. On a function body (no instruction in it was created by the pass), `runOnFunction`
returns when every `getelementptr` is in the domain of the visit; whenever it returns, deleting
the created instructions from the result gives back the original sequence in its order, up to
the index operands and in-bounds flags of its `getelementptr` instructions; every created
instruction is a multiply or a truncation; and the number of `getelementptr` instructions is
the original one. -/
theorem runOnFunction_frame (F : List Instruction)
    (hin : ∀ x ∈ F, x.isCreated = false) :
    ((∀ Inst, Instruction.gep Inst ∈ F → Inst.inDomain = true) →
      ∃ r, runOnFunction F = some r) ∧
    ∀ (F' : List Instruction) (b : Bool), runOnFunction F = some (F', b) →
      List.Forall₂ sameUpToIndices F (F'.filter (fun z => !z.isCreated)) ∧
      (F'.filter (fun z => !z.isCreated)).length = F.length ∧
      (F'.filter Instruction.isGEP).length = (F.filter Instruction.isGEP).length ∧
      ∀ v, Instruction.created v ∈ F' → v.isMul = true ∨ v.isTrunc = true := by
  constructor
  · intro hdom
    obtain ⟨R, hR⟩ := visitLoop_total F hdom []
    exact ⟨(R, true), by simp [runOnFunction, hR]⟩
  · intro F' b h
    unfold runOnFunction at h
    cases hl : visitLoop [] F with
    | none => simp [hl] at h
    | some R =>
      simp only [hl, Option.some.injEq, Prod.mk.injEq] at h
      obtain ⟨hR, _⟩ := h
      subst hR
      obtain ⟨blocks, hblocks, hall⟩ := visitLoop_blocks F [] R hl
      simp only [List.nil_append] at hblocks
      subst hblocks
      obtain ⟨h1, h2, h3⟩ := blocks_frame F blocks hall hin
      exact ⟨h1, h1.length_eq.symm, h2, h3⟩

/-- Witness for C12: a body with one `getelementptr` into an array of four pointers, indices
`[0, %x]` of type `i64`, between two other instructions. -/
theorem runOnFunction_frame_witness :
    (∃ r, runOnFunction
        [Instruction.other 0,
          Instruction.gep ⟨Ty.ptr (Ty.arr 4 (Ty.ptr (Ty.int 8))),
            [Value.constantInt 64 0, Value.other 7 (IdxTy.int 64)], true⟩,
          Instruction.other 1] = some r) ∧
    runOnFunction
        [Instruction.other 0,
          Instruction.gep ⟨Ty.ptr (Ty.arr 4 (Ty.ptr (Ty.int 8))),
            [Value.constantInt 64 0, Value.other 7 (IdxTy.int 64)], true⟩,
          Instruction.other 1]
      = some ([Instruction.other 0,
          Instruction.created
            (Value.mul (Value.other 7 (IdxTy.int 64)) (Value.constantInt 64 2)),
          Instruction.created
            (Value.trunc (Value.mul (Value.other 7 (IdxTy.int 64)) (Value.constantInt 64 2))
              (IdxTy.int 32)),
          Instruction.gep ⟨Ty.ptr (Ty.arr 4 (Ty.ptr (Ty.int 8))),
            [Value.constantInt 32 0,
              Value.trunc (Value.mul (Value.other 7 (IdxTy.int 64)) (Value.constantInt 64 2))
                (IdxTy.int 32)], false⟩,
          Instruction.other 1], true) :=
  ⟨(runOnFunction_frame
      [Instruction.other 0,
        Instruction.gep ⟨Ty.ptr (Ty.arr 4 (Ty.ptr (Ty.int 8))),
          [Value.constantInt 64 0, Value.other 7 (IdxTy.int 64)], true⟩,
        Instruction.other 1]
      (by
        intro x hx
        simp only [List.mem_cons, List.mem_singleton, List.not_mem_nil, or_false] at hx
        rcases hx with h | h | h <;> subst h <;> rfl)).1
      (by
        intro Inst h
        simp only [List.mem_cons, List.mem_singleton, reduceCtorEq, Instruction.gep.injEq,
          List.not_mem_nil, or_false, false_or] at h
        subst h
        rfl),
    rfl⟩

theorem visitAt_gep (pre post : List Instruction) (G : GetElementPtrInst) (r : Rewritten)
    (n : Nat) (hn : n = pre.length) (h : visitGetElementPtrInst G = some r) :
    visitAt (pre ++ Instruction.gep G :: post) n =
      some (pre ++ r.inserted.map Instruction.created ++ [Instruction.gep (G.rewritten r)]
        ++ post) := by
  subst hn
  unfold visitAt
  have hget : (pre ++ Instruction.gep G :: post)[pre.length]? = some (Instruction.gep G) := by
    rw [List.getElem?_append_right (le_refl _)]
    simp
  have htake : (pre ++ Instruction.gep G :: post).take pre.length = pre := by
    rw [List.take_append_of_le_length (le_refl _), List.take_length]
  have hdrop : (pre ++ Instruction.gep G :: post).drop (pre.length + 1) = post := by
    rw [List.drop_append]
    simp
  rw [hget]
  simp only [h, htake, hdrop]

theorem visitAt_not_gep (F : List Instruction) (n : Nat) (x : Instruction)
    (hx : F[n]? = some x) (hk : x.isGEP = false) : visitAt F n = some F := by
  unfold visitAt
  rw [hx]
  cases x with
  | gep Inst => simp [Instruction.isGEP] at hk
  | created v => rfl
  | other id => rfl

/-- C14. Two visits in one body commute: with `A` before `B` in the body and both visits
defined, visiting `A` and then `B` gives the same body as visiting `B` and then `A`, namely
the body in which each of the two is replaced by its own inserted instructions followed by its
rewritten self; when the body has no other `getelementptr`, this is also what the driver
returns.  An instruction that is not a `getelementptr`, a created multiply or truncation in
particular, is not dispatched: a visit at its position leaves the body as it is. -/
theorem visits_commute (pre mid post : List Instruction) (A B : GetElementPtrInst)
    (rA rB : Rewritten)
    (hA : visitGetElementPtrInst A = some rA) (hB : visitGetElementPtrInst B = some rB) :
    ((visitAt (pre ++ Instruction.gep A :: (mid ++ Instruction.gep B :: post))
        pre.length).bind
      (fun F1 => visitAt F1 (pre.length + rA.inserted.length + 1 + mid.length))
      = some (pre ++ (rA.inserted.map Instruction.created ++
            [Instruction.gep (A.rewritten rA)]) ++ mid ++
          (rB.inserted.map Instruction.created ++ [Instruction.gep (B.rewritten rB)]) ++
          post)) ∧
    ((visitAt (pre ++ Instruction.gep A :: (mid ++ Instruction.gep B :: post))
        (pre.length + 1 + mid.length)).bind
      (fun F2 => visitAt F2 pre.length)
      = some (pre ++ (rA.inserted.map Instruction.created ++
            [Instruction.gep (A.rewritten rA)]) ++ mid ++
          (rB.inserted.map Instruction.created ++ [Instruction.gep (B.rewritten rB)]) ++
          post)) ∧
    ((∀ x ∈ pre ++ mid ++ post, x.isGEP = false) →
      runOnFunction (pre ++ Instruction.gep A :: (mid ++ Instruction.gep B :: post))
        = some (pre ++ (rA.inserted.map Instruction.created ++
              [Instruction.gep (A.rewritten rA)]) ++ mid ++
            (rB.inserted.map Instruction.created ++ [Instruction.gep (B.rewritten rB)]) ++
            post, true)) ∧
    (∀ (G : List Instruction) (n : Nat) (x : Instruction),
      G[n]? = some x → x.isGEP = false → visitAt G n = some G) := by
  refine ⟨?_, ?_, ?_, ?_⟩
  · rw [visitAt_gep pre _ A rA pre.length rfl hA]
    simp only [Option.some_bind]
    have hre : pre ++ rA.inserted.map Instruction.created ++ [Instruction.gep (A.rewritten rA)]
          ++ (mid ++ Instruction.gep B :: post)
        = (pre ++ rA.inserted.map Instruction.created ++ [Instruction.gep (A.rewritten rA)]
          ++ mid) ++ Instruction.gep B :: post := by
      simp [List.append_assoc]
    rw [hre, visitAt_gep _ post B rB _ (by simp; omega) hB]
    simp [List.append_assoc]
  · have hre : pre ++ Instruction.gep A :: (mid ++ Instruction.gep B :: post)
        = (pre ++ Instruction.gep A :: mid) ++ Instruction.gep B :: post := by
      simp [List.append_assoc]
    rw [hre, visitAt_gep _ post B rB _ (by simp; omega) hB]
    simp only [Option.some_bind]
    have hre2 : pre ++ Instruction.gep A :: mid ++ rB.inserted.map Instruction.created
          ++ [Instruction.gep (B.rewritten rB)] ++ post
        = pre ++ Instruction.gep A :: (mid ++ rB.inserted.map Instruction.created
          ++ [Instruction.gep (B.rewritten rB)] ++ post) := by
      simp [List.append_assoc]
    rw [hre2, visitAt_gep pre _ A rA pre.length rfl hA]
    simp [List.append_assoc]
  · intro hno
    have hpre : ∀ x ∈ pre, x.isGEP = false := fun x hx => hno x (by simp [hx])
    have hmid : ∀ x ∈ mid, x.isGEP = false := fun x hx => hno x (by simp [hx])
    have hpost : ∀ x ∈ post, x.isGEP = false := fun x hx => hno x (by simp [hx])
    have hall : List.Forall₂ (fun x blk => expandInstruction x = some blk)
        (pre ++ Instruction.gep A :: (mid ++ Instruction.gep B :: post))
        (pre.map (fun x => [x]) ++
          (rA.inserted.map Instruction.created ++ [Instruction.gep (A.rewritten rA)]) ::
          (mid.map (fun x => [x]) ++
            (rB.inserted.map Instruction.created ++ [Instruction.gep (B.rewritten rB)]) ::
            post.map (fun x => [x]))) := by
      have hsingle : ∀ l : List Instruction, (∀ x ∈ l, x.isGEP = false) →
          List.Forall₂ (fun x blk => expandInstruction x = some blk) l
            (l.map (fun x => [x])) := by
        intro l
        induction l with
        | nil => intro _; exact List.Forall₂.nil
        | cons a l ih =>
          intro hl
          refine List.Forall₂.cons ?_ (ih (fun x hx => hl x (List.mem_cons_of_mem _ hx)))
          have ha := hl a (List.mem_cons_self _ _)
          cases a with
          | gep Inst => simp [Instruction.isGEP] at ha
          | created v => rfl
          | other id => rfl
      refine List.rel_append (hsingle pre hpre) (List.Forall₂.cons ?_
        (List.rel_append (hsingle mid hmid) (List.Forall₂.cons ?_ (hsingle post hpost))))
      · simp [expandInstruction, hA]
      · simp [expandInstruction, hB]
    have hflat : ∀ l : List Instruction, (l.map (fun x => [x])).flatten = l := by
      intro l
      induction l with
      | nil => rfl
      | cons a l ih => simp [ih]
    unfold runOnFunction
    rw [visitLoop_of_blocks _ [] _ hall]
    simp [hflat, List.append_assoc]
  · intro G n x hx hk
    exact visitAt_not_gep G n x hx hk

/-- Witness for C14: two `getelementptr` instructions with an instruction between them; the
first gets a multiply, the second a truncation. -/
theorem visits_commute_witness :
    (visitAt ([] ++ Instruction.gep ⟨Ty.ptr (Ty.ptr (Ty.int 8)),
          [Value.other 7 (IdxTy.int 32)], true⟩ ::
        ([Instruction.other 0] ++ Instruction.gep ⟨Ty.ptr (Ty.int 32),
          [Value.other 9 (IdxTy.int 64)], true⟩ :: []))
        ([] : List Instruction).length).bind
      (fun F1 => visitAt F1 (([] : List Instruction).length +
        [Value.mul (Value.other 7 (IdxTy.int 32)) (Value.constantInt 32 2)].length + 1 +
        [Instruction.other 0].length))
      = some ([] ++ ([Value.mul (Value.other 7 (IdxTy.int 32))
              (Value.constantInt 32 2)].map Instruction.created ++
            [Instruction.gep (GetElementPtrInst.rewritten
              ⟨Ty.ptr (Ty.ptr (Ty.int 8)), [Value.other 7 (IdxTy.int 32)], true⟩
              ⟨[Value.mul (Value.other 7 (IdxTy.int 32)) (Value.constantInt 32 2)], false,
                [Value.mul (Value.other 7 (IdxTy.int 32)) (Value.constantInt 32 2)]⟩)]) ++
          [Instruction.other 0] ++
          ([Value.trunc (Value.other 9 (IdxTy.int 64)) (IdxTy.int 32)].map
              Instruction.created ++
            [Instruction.gep (GetElementPtrInst.rewritten
              ⟨Ty.ptr (Ty.int 32), [Value.other 9 (IdxTy.int 64)], true⟩
              ⟨[Value.trunc (Value.other 9 (IdxTy.int 64)) (IdxTy.int 32)], true,
                [Value.trunc (Value.other 9 (IdxTy.int 64)) (IdxTy.int 32)]⟩)]) ++
          []) :=
  (visits_commute [] [Instruction.other 0] []
    ⟨Ty.ptr (Ty.ptr (Ty.int 8)), [Value.other 7 (IdxTy.int 32)], true⟩
    ⟨Ty.ptr (Ty.int 32), [Value.other 9 (IdxTy.int 64)], true⟩
    ⟨[Value.mul (Value.other 7 (IdxTy.int 32)) (Value.constantInt 32 2)], false,
      [Value.mul (Value.other 7 (IdxTy.int 32)) (Value.constantInt 32 2)]⟩
    ⟨[Value.trunc (Value.other 9 (IdxTy.int 64)) (IdxTy.int 32)], true,
      [Value.trunc (Value.other 9 (IdxTy.int 64)) (IdxTy.int 32)]⟩
    (by decide) (by decide)).1

/-! ## The flag of the struct loop -/

theorem structIteration_eq_spec (baseType : Ty) (s : StructLoopState) (value : Value) :
    structIteration baseType s value = specStructIteration baseType s value := by
  obtain ⟨ops, flag, ins⟩ := s
  cases flag with
  | false =>
    simp only [structIteration, specStructIteration, Bool.false_eq_true, if_false]
    cases getIndexedType baseType (ops ++ [value]) with
    | none => rfl
    | some t => cases h : t.isArrayOfPointers <;> simp [h]
  | true =>
    cases hc : value.asConstantInt with
    | none =>
      simp only [structIteration, specStructIteration, hc, if_true, structNewVal, insertedMul,
        Option.toList]
      cases getIndexedType baseType
          (ops ++ [Value.mul value (ConstantInt.get value.getType 2)]) with
      | none => rfl
      | some t => cases h : t.isArrayOfPointers <;> simp [h]
    | some p =>
      simp only [structIteration, specStructIteration, hc, if_true, structNewVal, insertedMul,
        Option.toList, List.append_nil]
      cases getIndexedType baseType
          (ops ++ [ConstantInt.get value.getType
            (toUInt64 (mulInt64 (getSExtValue p.1 p.2) 2))]) with
      | none => rfl
      | some t => cases h : t.isArrayOfPointers <;> simp [h]

/-- The loop of the struct branch is the iteration of its body. -/
theorem structLoop_eq_iterations (baseType : Ty) (todo : List Value) :
    ∀ (done : List Value) (flag : Bool) (inserted : List Value),
      structLoop baseType done todo flag inserted =
        (structIterations baseType ⟨done, flag, inserted⟩ todo).map
          (fun s => (s.operands, s.inserted)) := by
  induction todo with
  | nil => intro done flag inserted; simp [structLoop, structIterations]
  | cons v rest ih =>
    intro done flag inserted
    rw [structLoop_cons]
    simp only [structIterations, structIteration_eq_spec, specStructIteration]
    cases getIndexedType baseType (done ++ [if flag = true then structNewVal v else v]) with
    | none => rfl
    | some t =>
      simp only
      rw [ih]
      cases flag <;> simp

theorem structIterations_flag (baseType : Ty) (todo : List Value) :
    ∀ (ops : List Value) (cur : Ty) (inserted : List Value), ops ≠ [] →
      getIndexedType baseType ops = some cur → (getIndexedTypeFrom cur todo).isSome = true →
      ∃ s, structIterations baseType ⟨ops, cur.isArrayOfPointers, inserted⟩ todo = some s ∧
        ∃ t, getIndexedTypeFrom cur todo = some t ∧
          s.indexingIntoPointerArray = t.isArrayOfPointers := by
  induction todo with
  | nil =>
    intro ops cur inserted _ _ _
    exact ⟨_, rfl, cur, rfl, rfl⟩
  | cons v rest ih =>
    intro ops cur inserted hne hcur hwt
    simp only [getIndexedTypeFrom] at hwt
    cases ht : getTypeAtIndex cur v with
    | none => simp [ht] at hwt
    | some t =>
      simp only [ht, Option.some_bind] at hwt
      have hstep : getIndexedType baseType
          (ops ++ [if cur.isArrayOfPointers = true then structNewVal v else v]) = some t := by
        rw [getIndexedType_snoc _ _ _ hne, hcur, Option.some_bind]
        by_cases hf : cur.isArrayOfPointers = true
        · rw [if_pos hf, getTypeAtIndex_arrayOfPointers cur _ v hf, ht]
        · rw [if_neg hf, ht]
      obtain ⟨s, hs, t', ht', hflag⟩ := ih _ t
        (if cur.isArrayOfPointers = true then inserted ++ (insertedMul v).toList else inserted)
        (by simp) hstep hwt
      refine ⟨s, ?_, t', ?_, hflag⟩
      · simp only [structIterations, structIteration_eq_spec, specStructIteration, hstep]
        exact hs
      · simp only [getIndexedTypeFrom, ht, Option.some_bind]
        exact ht'

theorem getIndexedTypeFrom_take (cur : Ty) (l : List Value) (n : Nat)
    (h : (getIndexedTypeFrom cur l).isSome = true) :
    (getIndexedTypeFrom cur (l.take n)).isSome = true := by
  have hsplit := getIndexedTypeFrom_append (l.take n) (l.drop n) cur
  rw [List.take_append_drop] at hsplit
  cases ht : getIndexedTypeFrom cur (l.take n) with
  | none =>
    rw [ht] at hsplit
    simp only [Option.none_bind] at hsplit
    rw [hsplit] at h
    cases h
  | some t => rfl

theorem arrayOfPointers_step (t : Ty) (x : Value) (h : t.isArrayOfPointers = true) :
    ∃ p, getTypeAtIndex t x = some (Ty.ptr p) := by
  cases t with
  | arr n e =>
    cases e with
    | ptr p => exact ⟨p, rfl⟩
    | _ => simp [Ty.isArrayOfPointers, Ty.isPointerTy] at h
  | _ => simp [Ty.isArrayOfPointers] at h

theorem structSelects_not_consecutive (baseType : Ty) (indices : List Value) (i : Nat)
    (hi : i < indices.length) :
    ¬ (structSelects baseType indices i = true ∧
        structSelects baseType indices (i + 1) = true) := by
  rintro ⟨h1, h2⟩
  simp only [structSelects, Bool.and_eq_true, decide_eq_true_eq] at h1 h2
  obtain ⟨hi1, h1⟩ := h1
  obtain ⟨_, h2⟩ := h2
  have hne : indices.take i ≠ [] := by
    intro h
    have := congrArg List.length h
    simp only [List.length_take, List.length_nil] at this
    omega
  have htake : indices.take (i + 1) = indices.take i ++ [indices[i]] := by
    rw [List.take_succ, List.getElem?_eq_getElem hi]
    rfl
  cases ht : getIndexedType baseType (indices.take i) with
  | none => simp [ht] at h1
  | some t =>
    simp only [ht] at h1
    obtain ⟨p, hp⟩ := arrayOfPointers_step t indices[i] h1
    rw [htake, getIndexedType_snoc _ _ _ hne, ht, Option.some_bind, hp] at h2
    simp [Ty.isArrayOfPointers] at h2

/-- C15. The body of the struct loop, with the flag as the code maintains it, is the
traversal the specification words, on every state and operand; the loop is the iteration of
that body; for a well-typed struct-based address computation the loop state after the first
`I` positions exists and its flag is true exactly when the type reached by the index prefix
`[1..I]` is an array of pointers; and no two consecutive positions are both doubled. -/
theorem struct_flag_refines_spec (baseType : Ty) (Inst : GetElementPtrInst)
    (hptr : Inst.pointerOperandType = Ty.ptr baseType)
    (hs : baseType.isStructTy = true) (hwt : Inst.wellTyped = true) :
    (∀ (s : StructLoopState) (value : Value),
      structIteration baseType s value = specStructIteration baseType s value) ∧
    structLoop baseType [] Inst.indices false [] =
      (structIterations baseType ⟨[], false, []⟩ Inst.indices).map
        (fun s => (s.operands, s.inserted)) ∧
    (∀ I : Nat, ∃ s,
      structIterations baseType ⟨[], false, []⟩ (Inst.indices.take I) = some s ∧
      s.indexingIntoPointerArray = specFlagAfter baseType Inst.indices I) ∧
    (∀ i : Nat, i < Inst.indices.length →
      ¬ (structSelects baseType Inst.indices i = true ∧
          structSelects baseType Inst.indices (i + 1) = true)) := by
  have hres : (getIndexedType baseType Inst.indices).isSome = true := by
    simpa [GetElementPtrInst.wellTyped, hptr] using hwt
  have hna : baseType.isArrayOfPointers = false := by
    cases baseType <;> simp_all [Ty.isStructTy, Ty.isArrayOfPointers]
  refine ⟨structIteration_eq_spec baseType, structLoop_eq_iterations baseType _ _ _ _, ?_,
    fun i hi => structSelects_not_consecutive baseType Inst.indices i hi⟩
  intro I
  cases hI : Inst.indices.take I with
  | nil =>
    refine ⟨⟨[], false, []⟩, rfl, ?_⟩
    simp [specFlagAfter, hI, getIndexedType, hna]
  | cons v0 rest =>
    have hsub : (getIndexedType baseType (Inst.indices.take I)).isSome = true := by
      cases hidx : Inst.indices with
      | nil => simp [hidx] at hI
      | cons a l =>
        rw [hidx] at hres
        cases I with
        | zero => simp at hI
        | succ J =>
          simp only [List.take_succ_cons, getIndexedType]
          exact getIndexedTypeFrom_take baseType l J hres
    rw [hI] at hsub
    simp only [getIndexedType] at hsub
    obtain ⟨s, hs1, t, ht, hflag⟩ :=
      structIterations_flag baseType rest [v0] baseType [] (by simp) rfl hsub
    rw [hna] at hs1
    refine ⟨s, ?_, ?_⟩
    · simp only [structIterations, structIteration_eq_spec, specStructIteration,
        Bool.false_eq_true, if_false, List.nil_append, getIndexedType, getIndexedTypeFrom, hna]
      exact hs1
    · simp only [specFlagAfter, hI, getIndexedType, ht]
      exact hflag

/-- Witness for C15: base layout `{ i32; [4 x i8*] }`, indices `[0, 1, 3]`. -/
theorem struct_flag_refines_spec_witness :
    ∃ s, structIterations (Ty.struct [Ty.int 32, Ty.arr 4 (Ty.ptr (Ty.int 8))])
        ⟨[], false, []⟩
        ([Value.constantInt 64 0, Value.constantInt 32 1, Value.constantInt 64 3].take 2)
        = some s ∧
      s.indexingIntoPointerArray =
        specFlagAfter (Ty.struct [Ty.int 32, Ty.arr 4 (Ty.ptr (Ty.int 8))])
          [Value.constantInt 64 0, Value.constantInt 32 1, Value.constantInt 64 3] 2 :=
  (struct_flag_refines_spec (Ty.struct [Ty.int 32, Ty.arr 4 (Ty.ptr (Ty.int 8))])
    ⟨Ty.ptr (Ty.struct [Ty.int 32, Ty.arr 4 (Ty.ptr (Ty.int 8))]),
      [Value.constantInt 64 0, Value.constantInt 32 1, Value.constantInt 64 3], true⟩
    rfl rfl rfl).2.2.1 2

/-! ## The in-bounds flag -/

theorem doublingStage_isInBounds (baseType : Ty) (Inst : GetElementPtrInst) (st : Rewritten)
    (h : doublingStage baseType Inst = some st) :
    st.isInBounds =
      if (baseType.isPointerTy || baseType.isArrayOfPointers) = true then
        Inst.isInBounds && Inst.indices.all isZeroConstant
      else Inst.isInBounds := by
  by_cases hpat : (baseType.isPointerTy || baseType.isArrayOfPointers) = true
  · rw [doublingStage_pointerArray baseType Inst hpat] at h
    simp only [Option.some.injEq] at h
    subst h
    rw [if_pos hpat]
  · rw [if_neg hpat]
    unfold doublingStage at h
    rw [if_neg hpat] at h
    split at h
    · cases hl : structLoop baseType [] Inst.indices false [] with
      | none => simp [hl] at h
      | some p =>
        simp only [hl, Option.some.injEq] at h
        subst h
        rfl
    · simp only [Option.some.injEq] at h
      subst h
      rfl

theorem isZeroConstant_iff (w bits : Nat) (hw : w ≤ 64) (hb : bits < 2 ^ w) :
    isZeroConstant (Value.constantInt w bits) = true ↔ bits = 0 := by
  have hmod : bits % 2 ^ w = bits := Nat.mod_eq_of_lt hb
  have hb' : ((bits : Nat) : Int) < (2 : Int) ^ w := by exact_mod_cast hb
  simp only [isZeroConstant, Value.asConstantInt, decide_eq_true_eq, getSExtValue,
    Nat.min_eq_left hw, signExtend, hmod]
  constructor
  · intro h
    split at h
    · exact_mod_cast h
    · omega
  · intro h
    subst h
    simp

/-- C16. The visit returns on every input of its domain, and whenever it returns the
in-bounds flag is false if it was false before, or if the base is in the pointer-array
pattern and some index operand is not a constant zero (a `ConstantInt` whose `getSExtValue`
is zero); in every other case it is the flag from before.  For a constant of a width up to 64
the test for a constant zero is the test that its value is zero. -/
theorem inbounds_flag_characterised (Inst : GetElementPtrInst) :
    (Inst.inDomain = true → ∃ r, visitGetElementPtrInst Inst = some r) ∧
    (∀ r : Rewritten, visitGetElementPtrInst Inst = some r →
      (Inst.isInBounds = false → r.isInBounds = false) ∧
      (∀ baseType : Ty, Inst.pointerOperandType = Ty.ptr baseType →
        (baseType.isPointerTy || baseType.isArrayOfPointers) = true →
        (∃ v ∈ Inst.indices, isZeroConstant v = false) → r.isInBounds = false) ∧
      ((∀ baseType : Ty, Inst.pointerOperandType = Ty.ptr baseType →
          (baseType.isPointerTy || baseType.isArrayOfPointers) = true →
          ∀ v ∈ Inst.indices, isZeroConstant v = true) →
        r.isInBounds = Inst.isInBounds)) ∧
    (∀ w bits : Nat, w ≤ 64 → bits < 2 ^ w →
      (isZeroConstant (Value.constantInt w bits) = true ↔ bits = 0)) := by
  refine ⟨visit_total Inst, ?_, isZeroConstant_iff⟩
  intro r hr
  cases hp : Inst.pointerOperandType with
  | ptr baseType =>
    have hr' := hr
    unfold visitGetElementPtrInst at hr'
    rw [hp] at hr'
    cases hst : doublingStage baseType Inst with
    | none => simp [hst] at hr'
    | some st =>
      simp only [hst] at hr'
      have h1 := doublingStage_isInBounds baseType Inst st hst
      have h2 := (narrowingStage_positions st r hr').2
      rw [h1] at h2
      refine ⟨?_, ?_, ?_⟩
      · intro hf
        rw [h2, hf]
        split <;> simp
      · intro b hb hpat hex
        cases hb
        obtain ⟨v, hv, hnz⟩ := hex
        have : Inst.indices.all isZeroConstant = false := by
          rw [List.all_eq_false]
          exact ⟨v, hv, by simp [hnz]⟩
        rw [h2, if_pos hpat, this]
        simp
      · intro hall
        by_cases hpat : (baseType.isPointerTy || baseType.isArrayOfPointers) = true
        · have : Inst.indices.all isZeroConstant = true := by
            rw [List.all_eq_true]
            exact hall baseType rfl hpat
          rw [h2, if_pos hpat, this]
          simp
        · rw [h2, if_neg hpat]
  | _ =>
    rw [visit_non_pointer Inst (by intro b hb; rw [hp] at hb; cases hb)] at hr
    simp only [Option.some.injEq] at hr
    subst hr
    exact ⟨fun h => h, fun b hb => (by cases hb), fun _ => rfl⟩

/-- Witness for C16: base layout `{ i32; [4 x i8*] }`, indices `[0, 1, 3]`, flag set: the
visit returns and the flag is still set. -/
theorem inbounds_flag_characterised_witness :
    (∃ r, visitGetElementPtrInst
        ⟨Ty.ptr (Ty.struct [Ty.int 32, Ty.arr 4 (Ty.ptr (Ty.int 8))]),
          [Value.constantInt 32 0, Value.constantInt 32 1, Value.constantInt 32 3], true⟩
        = some r) ∧
    (⟨[Value.constantInt 32 0, Value.constantInt 32 1, Value.constantInt 32 6], true, []⟩ :
        Rewritten).isInBounds = true :=
  ⟨(inbounds_flag_characterised
      ⟨Ty.ptr (Ty.struct [Ty.int 32, Ty.arr 4 (Ty.ptr (Ty.int 8))]),
        [Value.constantInt 32 0, Value.constantInt 32 1, Value.constantInt 32 3], true⟩).1 rfl,
    ((inbounds_flag_characterised
      ⟨Ty.ptr (Ty.struct [Ty.int 32, Ty.arr 4 (Ty.ptr (Ty.int 8))]),
        [Value.constantInt 32 0, Value.constantInt 32 1, Value.constantInt 32 3], true⟩).2.1
      ⟨[Value.constantInt 32 0, Value.constantInt 32 1, Value.constantInt 32 6], true, []⟩
      (by decide)).2.2
      (by intro b hb hpat; cases hb; simp [Ty.isPointerTy, Ty.isArrayOfPointers] at hpat)⟩

/-! ## The type reached by the rewritten indices -/

theorem signExtend_dvd (m b : Nat) : (2 : Int) ^ m ∣ signExtend m b - (b : Int) := by
  have hmod : (2 : Int) ^ m ∣ ((b % 2 ^ m : Nat) : Int) - (b : Int) := by
    have e : ((b % 2 ^ m : Nat) : Int) = (b : Int) % (2 : Int) ^ m := by
      rw [Int.natCast_mod]
      norm_cast
    rw [e]
    have h := Int.dvd_sub_of_emod_eq (rfl : (b : Int) % (2 : Int) ^ m = (b : Int) % (2 : Int) ^ m)
    have h2 := (dvd_neg).mpr h
    simpa using h2
  unfold signExtend
  split
  · exact hmod
  · have h := dvd_sub hmod (dvd_refl ((2 : Int) ^ m))
    have e : ((b % 2 ^ m : Nat) : Int) - (2 : Int) ^ m - (b : Int)
        = ((b % 2 ^ m : Nat) : Int) - (b : Int) - (2 : Int) ^ m := by ring
    rw [e]
    exact h

/-- Two bit patterns below `2 ^ w` that agree modulo `2 ^ w` with the same integer are equal. -/
theorem bits_eq_of_cong (w a b : Nat) (z : Int) (ha : a < 2 ^ w) (hb : b < 2 ^ w)
    (h1 : (2 : Int) ^ w ∣ (a : Int) - z) (h2 : (2 : Int) ^ w ∣ (b : Int) - z) : a = b := by
  have ha' : (a : Int) < (2 : Int) ^ w := by exact_mod_cast ha
  have hb' : (b : Int) < (2 : Int) ^ w := by exact_mod_cast hb
  have hd : (2 : Int) ^ w ∣ (a : Int) - (b : Int) := by
    have := dvd_sub h1 h2
    simpa using this
  have := Int.eq_zero_of_abs_lt_dvd hd (by rw [abs_lt]; constructor <;> omega)
  omega

/-- Narrowing a normalised 32-bit constant gives the same constant. -/
theorem narrowNewVal_i32 (bits : Nat) (hb : bits < 2 ^ 32) :
    narrowNewVal (Value.constantInt 32 bits) = Value.constantInt 32 bits := by
  have hcong : (2 : Int) ^ 32 ∣
      ((toUInt64 (getSExtValue 32 bits) % 2 ^ 32 : Nat) : Int) - getSExtValue 32 bits :=
    toUInt64_mod_dvd _ 32 (by norm_num)
  have hs : (2 : Int) ^ 32 ∣ (bits : Int) - getSExtValue 32 bits := by
    have h := signExtend_dvd 32 bits
    have h2 := (dvd_neg).mpr h
    simpa [getSExtValue] using h2
  have := bits_eq_of_cong 32 _ bits _ (Nat.mod_lt _ (by positivity)) hb hcong hs
  simp only [narrowNewVal, Value.asConstantInt, ConstantInt.get]
  rw [this]

/-- Narrowing a scalar operand does not change what it selects. -/
theorem getTypeAtIndex_narrowNewVal (agg : Ty) (v : Value) (w : Nat)
    (hty : v.getType = IdxTy.int w)
    (hnorm : ∀ w' bits, v = Value.constantInt w' bits → bits < 2 ^ w')
    (hres : (getTypeAtIndex agg v).isSome = true) :
    getTypeAtIndex agg (narrowNewVal v) = getTypeAtIndex agg v := by
  cases agg with
  | struct fields =>
    cases v with
    | constantInt w' bits =>
      by_cases h32 : w' = 32
      · subst h32
        rw [narrowNewVal_i32 bits (hnorm 32 bits rfl)]
      · simp [getTypeAtIndex, h32] at hres
    | constantSplat n w' bits => simp [Value.getType] at hty
    | other id ty => simp [getTypeAtIndex] at hres
    | mul a b => simp [getTypeAtIndex] at hres
    | trunc a ty => simp [getTypeAtIndex] at hres
  | arr n e => rfl
  | vec n e => rfl
  | int w' => simp [getTypeAtIndex] at hres
  | other id => simp [getTypeAtIndex] at hres
  | ptr p => simp [getTypeAtIndex] at hres

theorem take_types_cons (cur t : Ty) (v x : Value) (vs xs : List Value)
    (hv : getTypeAtIndex cur v = some t) (hx : getTypeAtIndex cur x = some t)
    (h : ∀ j, getIndexedTypeFrom t (xs.take j) = getIndexedTypeFrom t (vs.take j)) :
    ∀ j, getIndexedTypeFrom cur ((x :: xs).take j) = getIndexedTypeFrom cur ((v :: vs).take j) := by
  intro j
  cases j with
  | zero => rfl
  | succ j => simp [getIndexedTypeFrom, hv, hx, h j]

theorem narrow_types {l l' : List Value}
    (hall : List.Forall₂ (fun v x => x = v ∨ x = narrowNewVal v) l l') :
    ∀ cur : Ty, (getIndexedTypeFrom cur l).isSome = true →
      (∀ v ∈ l, ∃ w, v.getType = IdxTy.int w) →
      (∀ w bits, Value.constantInt w bits ∈ l → bits < 2 ^ w) →
      ∀ j, getIndexedTypeFrom cur (l'.take j) = getIndexedTypeFrom cur (l.take j) := by
  induction hall with
  | nil => intro cur _ _ _ j; rfl
  | @cons v x rest rest' hvx _ ih =>
    intro cur hres hsc hnorm
    simp only [getIndexedTypeFrom] at hres
    cases ht : getTypeAtIndex cur v with
    | none => simp [ht] at hres
    | some t =>
      simp only [ht, Option.some_bind] at hres
      obtain ⟨w, hw⟩ := hsc v (List.mem_cons_self _ _)
      have hx : getTypeAtIndex cur x = some t := by
        rcases hvx with h | h
        · rw [h, ht]
        · rw [h, getTypeAtIndex_narrowNewVal cur v w hw
            (fun w' bits e => hnorm w' bits (by rw [← e]; exact List.mem_cons_self _ _))
            (by simp [ht]), ht]
      exact take_types_cons cur t v x rest rest' ht hx
        (ih t hres (fun y hy => hsc y (List.mem_cons_of_mem _ hy))
          (fun w' bits hm => hnorm w' bits (List.mem_cons_of_mem _ hm)))

theorem structWalk_take_types (rest : List Value) :
    ∀ cur : Ty, (getIndexedTypeFrom cur rest).isSome = true →
      ∀ j, getIndexedTypeFrom cur ((structWalk cur rest).take j)
        = getIndexedTypeFrom cur (rest.take j) := by
  induction rest with
  | nil => intro cur _ j; simp [structWalk]
  | cons v vs ih =>
    intro cur hres
    simp only [getIndexedTypeFrom] at hres
    cases ht : getTypeAtIndex cur v with
    | none => simp [ht] at hres
    | some t =>
      simp only [ht, Option.some_bind] at hres
      have hx : getTypeAtIndex cur (if cur.isArrayOfPointers = true then structNewVal v else v)
          = some t := by
        by_cases hf : cur.isArrayOfPointers = true
        · rw [if_pos hf, getTypeAtIndex_arrayOfPointers cur _ v hf, ht]
        · rw [if_neg hf, ht]
      simp only [structWalk, ht]
      exact take_types_cons cur t v _ vs (structWalk t vs) ht hx (ih t hres)

theorem pointerArray_take_types (baseType : Ty) (rest : List Value)
    (hpat : (baseType.isPointerTy || baseType.isArrayOfPointers) = true)
    (hres : (getIndexedTypeFrom baseType rest).isSome = true) :
    ∀ j, getIndexedTypeFrom baseType ((rest.map pointerArrayNewVal).take j)
      = getIndexedTypeFrom baseType (rest.take j) := by
  cases rest with
  | nil => intro j; simp
  | cons v vs =>
    have harr : baseType.isArrayOfPointers = true := by
      cases baseType <;>
        simp_all [Ty.isPointerTy, Ty.isArrayOfPointers, getIndexedTypeFrom, getTypeAtIndex]
    have hvs := arrayOfPointers_is_last baseType v vs harr hres
    subst hvs
    obtain ⟨p, hp⟩ := arrayOfPointers_step baseType v harr
    have hx : getTypeAtIndex baseType (pointerArrayNewVal v) = some (Ty.ptr p) := by
      rw [getTypeAtIndex_arrayOfPointers baseType _ v harr, hp]
    exact take_types_cons baseType (Ty.ptr p) v (pointerArrayNewVal v) [] [] hp hx
      (fun j => by simp)

theorem forall₂_mem_right {R : Value → Value → Prop} :
    ∀ {a b : List Value}, List.Forall₂ R a b → ∀ x ∈ b, ∃ v ∈ a, R v x := by
  intro a b h
  induction h with
  | nil => intro x hx; simp at hx
  | @cons v y vs ys hr _ ih =>
    intro x hx
    simp only [List.mem_cons] at hx
    rcases hx with hx | hx
    · subst hx
      exact ⟨v, List.mem_cons_self _ _, hr⟩
    · obtain ⟨u, hu, hux⟩ := ih x hx
      exact ⟨u, List.mem_cons_of_mem _ hu, hux⟩

/-- The doubling stage keeps operands scalar and constants normalised. -/
theorem doubled_scalar_normalised (v x : Value)
    (h : x = v ∨ x = pointerArrayNewVal v ∨ x = structNewVal v) :
    ((∃ w, v.getType = IdxTy.int w) → ∃ w, x.getType = IdxTy.int w) ∧
    ((∀ w bits, v = Value.constantInt w bits → bits < 2 ^ w) →
      ∀ w bits, x = Value.constantInt w bits → bits < 2 ^ w) := by
  rcases h with h | h | h
  · subst h
    exact ⟨fun h => h, fun h => h⟩
  · subst h
    refine ⟨fun hs => by rw [pointerArrayNewVal_getType]; exact hs, ?_⟩
    intro hn w bits hx
    cases v with
    | constantInt w' bits' =>
      by_cases hz : getSExtValue w' bits' = 0
      · simp only [pointerArrayNewVal, Value.asConstantInt, hz, if_true] at hx
        exact hn w bits hx
      · simp only [pointerArrayNewVal, Value.asConstantInt, hz, if_false, Value.getType,
          ConstantInt.get, Value.constantInt.injEq] at hx
        obtain ⟨hw, hb⟩ := hx
        subst hw
        rw [← hb]
        exact Nat.mod_lt _ (by positivity)
    | constantSplat n w' bits' => simp [pointerArrayNewVal, Value.asConstantInt] at hx
    | other id ty => simp [pointerArrayNewVal, Value.asConstantInt] at hx
    | mul a b => simp [pointerArrayNewVal, Value.asConstantInt] at hx
    | trunc a ty => simp [pointerArrayNewVal, Value.asConstantInt] at hx
  · subst h
    refine ⟨fun hs => by rw [structNewVal_getType]; exact hs, ?_⟩
    intro hn w bits hx
    cases v with
    | constantInt w' bits' =>
      simp only [structNewVal, Value.asConstantInt, Value.getType, ConstantInt.get,
        Value.constantInt.injEq] at hx
      obtain ⟨hw, hb⟩ := hx
      subst hw
      rw [← hb]
      exact Nat.mod_lt _ (by positivity)
    | constantSplat n w' bits' => simp [structNewVal, Value.asConstantInt] at hx
    | other id ty => simp [structNewVal, Value.asConstantInt] at hx
    | mul a b => simp [structNewVal, Value.asConstantInt] at hx
    | trunc a ty => simp [structNewVal, Value.asConstantInt] at hx

/-- On indices that resolve, the operands after the doubling stage reach, prefix by prefix,
the types the original operands reach. -/
theorem doublingStage_take_types (baseType : Ty) (Inst : GetElementPtrInst) (st : Rewritten)
    (hres : (getIndexedType baseType Inst.indices).isSome = true)
    (hst : doublingStage baseType Inst = some st) :
    ∀ j, getIndexedType baseType (st.indices.take j)
      = getIndexedType baseType (Inst.indices.take j) := by
  cases hI : Inst.indices with
  | nil =>
    have h0 := (doublingStage_positions baseType Inst st hst).length_eq
    rw [hI] at h0
    have : st.indices = [] := List.length_eq_zero.mp h0.symm
    intro j
    rw [this]
  | cons v0 rest =>
    rw [hI] at hres
    simp only [getIndexedType] at hres
    have key : ∃ x0 xs, st.indices = x0 :: xs ∧
        ∀ j, getIndexedTypeFrom baseType (xs.take j) = getIndexedTypeFrom baseType (rest.take j) := by
      by_cases hpat : (baseType.isPointerTy || baseType.isArrayOfPointers) = true
      · rw [doublingStage_pointerArray baseType Inst hpat] at hst
        simp only [Option.some.injEq] at hst
        subst hst
        exact ⟨pointerArrayNewVal v0, rest.map pointerArrayNewVal, by simp [hI],
          pointerArray_take_types baseType rest hpat hres⟩
      · by_cases hs : baseType.isStructTy = true
        · rw [doublingStage_struct baseType Inst hs (by rw [hI]; exact hres)] at hst
          simp only [Option.some.injEq] at hst
          subst hst
          exact ⟨v0, structWalk baseType rest, by simp [hI],
            structWalk_take_types rest baseType hres⟩
        · unfold doublingStage at hst
          rw [if_neg hpat, if_neg hs] at hst
          simp only [Option.some.injEq] at hst
          subst hst
          exact ⟨v0, rest, hI, fun j => rfl⟩
    obtain ⟨x0, xs, hx, hxs⟩ := key
    intro j
    rw [hx]
    cases j with
    | zero => rfl
    | succ j => simp [getIndexedType, hxs j]

/-- C17 as stated fails: for the well-typed address computation with base layout
`{ i32; i32 }` and indices `[i64 0, <4 x i32> splat 1]`, the narrowing sweep replaces the
member selector, a constant vector and so not a `ConstantInt`, by a truncation of it, and the
rewritten indices no longer resolve. -/
theorem rewritten_indices_well_typed_fails :
    ¬ (∀ (baseType : Ty) (Inst : GetElementPtrInst),
        Inst.pointerOperandType = Ty.ptr baseType → Inst.wellTyped = true →
        ∀ r : Rewritten, visitGetElementPtrInst Inst = some r →
          ∀ j, getIndexedType baseType (r.indices.take j)
            = getIndexedType baseType (Inst.indices.take j)) := by
  intro h
  have hev : visitGetElementPtrInst
      ⟨Ty.ptr (Ty.struct [Ty.int 32, Ty.int 32]),
        [Value.constantInt 64 0, Value.constantSplat 4 32 1], true⟩
      = some ⟨[Value.constantInt 32 0,
          Value.trunc (Value.constantSplat 4 32 1) (IdxTy.int 32)], true,
        [Value.trunc (Value.constantSplat 4 32 1) (IdxTy.int 32)]⟩ := by decide
  have h2 := h (Ty.struct [Ty.int 32, Ty.int 32])
    ⟨Ty.ptr (Ty.struct [Ty.int 32, Ty.int 32]),
      [Value.constantInt 64 0, Value.constantSplat 4 32 1], true⟩ rfl rfl _ hev 2
  simp [getIndexedType, getIndexedTypeFrom, getTypeAtIndex] at h2

/-- C17, amended. For a well-typed address computation with a pointer-typed base whose index
operands are all scalar integers (constants with their unused bits clear, as every `APInt`
has them), the visit returns when there is an index, and whenever it returns the first `j`
rewritten index operands reach the type the first `j` original operands reach, for every `j`;
so the rewritten instruction is well-typed and addresses the type it addressed. -/
theorem rewritten_indices_reach_same_type (baseType : Ty) (Inst : GetElementPtrInst)
    (hptr : Inst.pointerOperandType = Ty.ptr baseType) (hwt : Inst.wellTyped = true)
    (hsc : ∀ v ∈ Inst.indices, ∃ w, v.getType = IdxTy.int w)
    (hnorm : ∀ w bits, Value.constantInt w bits ∈ Inst.indices → bits < 2 ^ w) :
    (Inst.indices ≠ [] → ∃ r, visitGetElementPtrInst Inst = some r) ∧
    ∀ r : Rewritten, visitGetElementPtrInst Inst = some r →
      (∀ j, getIndexedType baseType (r.indices.take j)
        = getIndexedType baseType (Inst.indices.take j)) ∧
      getIndexedType baseType r.indices = getIndexedType baseType Inst.indices ∧
      (Inst.rewritten r).wellTyped = true := by
  have hres : (getIndexedType baseType Inst.indices).isSome = true := by
    simpa [GetElementPtrInst.wellTyped, hptr] using hwt
  constructor
  · intro hne
    apply visit_total
    simp only [GetElementPtrInst.inDomain, hwt, hptr, Bool.true_and]
    cases hI : Inst.indices with
    | nil => exact absurd hI hne
    | cons a l => rfl
  · intro r hr
    have hr' := hr
    unfold visitGetElementPtrInst at hr'
    rw [hptr] at hr'
    cases hst : doublingStage baseType Inst with
    | none => simp [hst] at hr'
    | some st =>
      simp only [hst] at hr'
      have hpos := doublingStage_positions baseType Inst st hst
      have h1 := doublingStage_take_types baseType Inst st hres hst
      have hnar := (narrowingStage_positions st r hr').1
      have hstres : (getIndexedType baseType st.indices).isSome = true := by
        have := h1 st.indices.length
        rw [List.take_length, hpos.length_eq.symm, List.take_length] at this
        rw [this]
        exact hres
      have hstsc : ∀ x ∈ st.indices, ∃ w, x.getType = IdxTy.int w := by
        intro x hx
        obtain ⟨v, hv, hvx⟩ := forall₂_mem_right hpos x hx
        exact (doubled_scalar_normalised v x hvx).1 (hsc v hv)
      have hstnorm : ∀ w bits, Value.constantInt w bits ∈ st.indices → bits < 2 ^ w := by
        intro w bits hx
        obtain ⟨v, hv, hvx⟩ := forall₂_mem_right hpos _ hx
        exact (doubled_scalar_normalised v _ hvx).2
          (fun w' bits' e => hnorm w' bits' (by rw [← e]; exact hv)) w bits rfl
      have h2 : ∀ j, getIndexedType baseType (r.indices.take j)
          = getIndexedType baseType (st.indices.take j) := by
        generalize st.indices = sl at hnar hstres hstsc hstnorm
        generalize r.indices = rl at hnar
        cases hnar with
        | nil => intro j; rfl
        | @cons x0 y0 xs ys _ htail =>
          simp only [getIndexedType] at hstres
          have hxs := narrow_types htail baseType hstres
            (fun y hy => hstsc y (List.mem_cons_of_mem _ hy))
            (fun w bits hm => hstnorm w bits (List.mem_cons_of_mem _ hm))
          intro j
          cases j with
          | zero => rfl
          | succ j => simp [getIndexedType, hxs j]
      have hlen : r.indices.length = Inst.indices.length := by
        rw [← hnar.length_eq, ← hpos.length_eq]
      have hall : ∀ j, getIndexedType baseType (r.indices.take j)
          = getIndexedType baseType (Inst.indices.take j) := fun j => (h2 j).trans (h1 j)
      have hwhole : getIndexedType baseType r.indices = getIndexedType baseType Inst.indices := by
        have := hall r.indices.length
        rw [List.take_length, hlen, List.take_length] at this
        exact this
      refine ⟨hall, hwhole, ?_⟩
      simp only [GetElementPtrInst.wellTyped, GetElementPtrInst.rewritten, hptr, hwhole]
      exact hres

/-- Witness for the amended C17: base layout `{ i32; [4 x i8*] }`, indices
`[i64 0, i32 1, i64 3]`. -/
theorem rewritten_indices_reach_same_type_witness :
    ∃ r, visitGetElementPtrInst
        ⟨Ty.ptr (Ty.struct [Ty.int 32, Ty.arr 4 (Ty.ptr (Ty.int 8))]),
          [Value.constantInt 64 0, Value.constantInt 32 1, Value.constantInt 64 3], true⟩
      = some r :=
  (rewritten_indices_reach_same_type (Ty.struct [Ty.int 32, Ty.arr 4 (Ty.ptr (Ty.int 8))])
    ⟨Ty.ptr (Ty.struct [Ty.int 32, Ty.arr 4 (Ty.ptr (Ty.int 8))]),
      [Value.constantInt 64 0, Value.constantInt 32 1, Value.constantInt 64 3], true⟩
    rfl rfl
    (by
      intro v hv
      simp only [List.mem_cons, List.mem_singleton, List.not_mem_nil, or_false] at hv
      rcases hv with h | h | h <;> subst h
      · exact ⟨64, rfl⟩
      · exact ⟨32, rfl⟩
      · exact ⟨64, rfl⟩)
    (by
      intro w bits hm
      simp only [List.mem_cons, Value.constantInt.injEq, List.mem_singleton,
        List.not_mem_nil, or_false] at hm
      rcases hm with ⟨h1, h2⟩ | ⟨h1, h2⟩ | ⟨h1, h2⟩ <;> subst h1 <;> subst h2 <;> norm_num)).1
    (by simp)

/-- C18, the code at the failing input: base layout `{ i32; [4 x i32] }`, indices
`[i64 0, i32 1, i32 %x]`.  The first index is 64 bits wide, so the sweep runs over all
operands and inserts a truncation to `i32` of `%x`, whose type is already `i32`. -/
theorem narrowing_truncates_i32_operand :
    visitGetElementPtrInst
        ⟨Ty.ptr (Ty.struct [Ty.int 32, Ty.arr 4 (Ty.int 32)]),
          [Value.constantInt 64 0, Value.constantInt 32 1, Value.other 7 (IdxTy.int 32)],
          true⟩
      = some ⟨[Value.constantInt 32 0, Value.constantInt 32 1,
            Value.trunc (Value.other 7 (IdxTy.int 32)) (IdxTy.int 32)], true,
          [Value.trunc (Value.other 7 (IdxTy.int 32)) (IdxTy.int 32)]⟩ ∧
    GetElementPtrInst.wellTyped
        ⟨Ty.ptr (Ty.struct [Ty.int 32, Ty.arr 4 (Ty.int 32)]),
          [Value.constantInt 64 0, Value.constantInt 32 1, Value.other 7 (IdxTy.int 32)],
          true⟩ = true ∧
    (Value.other 7 (IdxTy.int 32)).getType = IdxTy.int 32 := by
  refine ⟨by decide, rfl, rfl⟩

/-! ## The block of inserted instructions -/

theorem filter_isMul_pointerArray (l : List Value) (hpre : ∀ v ∈ l, v.isMul = false) :
    (l.map pointerArrayNewVal).filter Value.isMul = l.filterMap insertedMul := by
  induction l with
  | nil => rfl
  | cons v l ih =>
    have hv := hpre v (List.mem_cons_self _ _)
    have ih' := ih (fun y hy => hpre y (List.mem_cons_of_mem _ hy))
    cases hc : v.asConstantInt with
    | none =>
      simp [pointerArrayNewVal, insertedMul, hc, Value.isMul, ih', List.filterMap_cons]
    | some p =>
      have hvc : ∃ w bits, v = Value.constantInt w bits := by
        cases v <;> simp [Value.asConstantInt] at hc
        exact ⟨_, _, rfl⟩
      obtain ⟨w, bits, rfl⟩ := hvc
      by_cases hz : getSExtValue w bits = 0
      · simp [pointerArrayNewVal, insertedMul, Value.asConstantInt, hz, Value.isMul, ih',
          List.filterMap_cons]
      · simp [pointerArrayNewVal, insertedMul, Value.asConstantInt, hz, Value.isMul, ih',
          List.filterMap_cons, Value.getType, ConstantInt.get]

theorem filter_isTrunc_narrow (l : List Value) :
    (l.map narrowNewVal).filter Value.isTrunc = l.filterMap insertedTrunc := by
  induction l with
  | nil => rfl
  | cons v l ih =>
    cases hc : v.asConstantInt with
    | none => simp [narrowNewVal, insertedTrunc, hc, Value.isTrunc, ih, List.filterMap_cons]
    | some p =>
      simp [narrowNewVal, insertedTrunc, hc, Value.isTrunc, ih, List.filterMap_cons,
        ConstantInt.get]

theorem structStep_filter_isMul (flag : Bool) (v : Value) (hv : v.isMul = false) :
    [if flag = true then structNewVal v else v].filter Value.isMul
      = if flag = true then (insertedMul v).toList else [] := by
  cases flag with
  | false => simp [hv]
  | true =>
    cases hc : v.asConstantInt with
    | none => simp [structNewVal, insertedMul, hc, Value.isMul]
    | some p =>
      cases hty : v.getType <;>
        simp [structNewVal, insertedMul, hc, Value.isMul, hty, ConstantInt.get]

theorem structLoop_filter_isMul (baseType : Ty) (todo : List Value) :
    ∀ (done : List Value) (flag : Bool) (inserted : List Value) (r : List Value × List Value),
      (∀ v ∈ todo, v.isMul = false) →
      structLoop baseType done todo flag inserted = some r →
      ∃ news, r.1 = done ++ news ∧ r.2 = inserted ++ news.filter Value.isMul := by
  induction todo with
  | nil =>
    intro done flag inserted r _ h
    simp only [structLoop, Option.some.injEq] at h
    subst h
    exact ⟨[], by simp, by simp⟩
  | cons v rest ih =>
    intro done flag inserted r hpre h
    rw [structLoop_cons] at h
    cases ht : getIndexedType baseType (done ++ [if flag = true then structNewVal v else v]) with
    | none => simp [ht] at h
    | some t =>
      simp only [ht] at h
      obtain ⟨news, h1, h2⟩ := ih _ _ _ r (fun y hy => hpre y (List.mem_cons_of_mem _ hy)) h
      refine ⟨(if flag = true then structNewVal v else v) :: news, by simp [h1], ?_⟩
      rw [h2, List.append_assoc]
      congr 1
      have := structStep_filter_isMul flag v (hpre v (List.mem_cons_self _ _))
      rw [← this]
      rw [← List.filter_append]
      rfl

/-- When no operand is a multiply to begin with, the doubling stage inserts exactly the
multiplies that are operands afterwards, in operand order. -/
theorem doublingStage_inserted_eq (baseType : Ty) (Inst : GetElementPtrInst) (st : Rewritten)
    (hpre : ∀ v ∈ Inst.indices, v.isMul = false)
    (h : doublingStage baseType Inst = some st) :
    st.inserted = st.indices.filter Value.isMul := by
  unfold doublingStage at h
  split at h
  · rw [pointerArrayLoop_eq] at h
    simp only [List.nil_append, Option.some.injEq] at h
    subst h
    exact (filter_isMul_pointerArray Inst.indices hpre).symm
  · split at h
    · cases hl : structLoop baseType [] Inst.indices false [] with
      | none => simp [hl] at h
      | some p =>
        obtain ⟨news, h1, h2⟩ :=
          structLoop_filter_isMul baseType Inst.indices [] false [] p hpre hl
        simp only [hl, Option.some.injEq] at h
        subst h
        simp only [List.nil_append] at h1 h2
        simp only [h1, h2]
    · simp only [Option.some.injEq] at h
      subst h
      symm
      rw [List.filter_eq_nil_iff]
      intro v hv
      simp [hpre v hv]

/-- An operand after the doubling stage is no truncation when the original was none, and when
it is a multiply that the original was not, it is the multiply of the original. -/
theorem doubled_shape (v x : Value)
    (h : x = v ∨ x = pointerArrayNewVal v ∨ x = structNewVal v)
    (hv : v.isMul = false ∧ v.isTrunc = false) :
    x.isTrunc = false ∧
      (x.isMul = true → x = Value.mul v (ConstantInt.get v.getType 2)) := by
  cases hc : v.asConstantInt with
  | none =>
    have hp : pointerArrayNewVal v = Value.mul v (ConstantInt.get v.getType 2) := by
      simp [pointerArrayNewVal, hc]
    have hs : structNewVal v = Value.mul v (ConstantInt.get v.getType 2) := by
      simp [structNewVal, hc]
    rw [hp, hs] at h
    rcases h with h | h | h
    · subst h
      exact ⟨hv.2, fun hm => by rw [hv.1] at hm; cases hm⟩
    · subst h
      exact ⟨rfl, fun _ => rfl⟩
    · subst h
      exact ⟨rfl, fun _ => rfl⟩
  | some p =>
    have hvc : ∃ w bits, v = Value.constantInt w bits := by
      cases v <;> simp [Value.asConstantInt] at hc
      exact ⟨_, _, rfl⟩
    obtain ⟨w, bits, rfl⟩ := hvc
    have hxv : ∃ w' bits', x = Value.constantInt w' bits' := by
      rcases h with h | h | h
      · exact ⟨w, bits, h⟩
      · by_cases hz : getSExtValue w bits = 0
        · exact ⟨w, bits, by simp [h, pointerArrayNewVal, Value.asConstantInt, hz]⟩
        · exact ⟨w, toUInt64 (mulInt64 (getSExtValue w bits) 2) % 2 ^ w, by
            simp only [h, pointerArrayNewVal, Value.asConstantInt, hz, if_false,
              Value.getType, ConstantInt.get]⟩
      · exact ⟨w, toUInt64 (mulInt64 (getSExtValue w bits) 2) % 2 ^ w, by
          simp only [h, structNewVal, Value.asConstantInt, Value.getType, ConstantInt.get]⟩
    obtain ⟨w', bits', rfl⟩ := hxv
    exact ⟨rfl, fun hm => by simp [Value.isMul] at hm⟩

theorem narrowNewVal_isMul (y : Value) : (narrowNewVal y).isMul = false := by
  unfold narrowNewVal
  cases y.asConstantInt <;> rfl

theorem narrowNewVal_of_isMul (m : Value) (hm : m.isMul = true) :
    narrowNewVal m = Value.trunc m (IdxTy.int 32) := by
  cases m <;> simp [Value.isMul] at hm
  rfl

theorem isTrunc_of_isMul (m : Value) (hm : m.isMul = true) : m.isTrunc = false := by
  cases m <;> simp [Value.isMul] at hm
  rfl

theorem narrowNewVal_isTrunc (y : Value) (h : (narrowNewVal y).isTrunc = true) :
    narrowNewVal y = Value.trunc y (IdxTy.int 32) := by
  unfold narrowNewVal at h ⊢
  cases hc : y.asConstantInt with
  | none => rfl
  | some p => simp [hc, ConstantInt.get, Value.isTrunc] at h

/-- C19. With index operands that existed before the visit (none of them a multiply or a
truncation the visit creates), the visit returns on every input of its domain, and whenever it
returns the block it inserted before the instruction is: the multiplies that are operands after
the doubling stage, in operand order, followed by the truncations that are operands after the
visit, in operand order.  Each multiply is fed by an original operand; each truncation is fed
by an operand as the doubling stage left it, which is an original operand, a new constant or
one of those multiplies; every operand of the instruction that the visit created is in the
block; and where a doubled operand is also narrowed, the operand is the truncation of the
multiply. -/
theorem inserted_block_defs_before_uses (Inst : GetElementPtrInst)
    (hpre : ∀ v ∈ Inst.indices, v.isMul = false ∧ v.isTrunc = false) :
    (Inst.inDomain = true → ∃ r, visitGetElementPtrInst Inst = some r) ∧
    ∀ r : Rewritten, visitGetElementPtrInst Inst = some r →
      ∃ mid : List Value,
        (∀ baseType : Ty, Inst.pointerOperandType = Ty.ptr baseType →
          ∃ st, doublingStage baseType Inst = some st ∧ st.indices = mid) ∧
        r.inserted = mid.filter Value.isMul ++ r.indices.filter Value.isTrunc ∧
        (∀ m ∈ mid.filter Value.isMul,
          ∃ v ∈ Inst.indices, m = Value.mul v (ConstantInt.get v.getType 2)) ∧
        (∀ t ∈ r.indices.filter Value.isTrunc,
          ∃ x ∈ mid, t = Value.trunc x (IdxTy.int 32)) ∧
        (∀ x ∈ mid, x ∈ Inst.indices ∨ x ∈ mid.filter Value.isMul ∨
          x.asConstantInt.isSome = true) ∧
        (∀ x ∈ r.indices, x.isMul = true ∨ x.isTrunc = true → x ∈ r.inserted) ∧
        (∀ (i : Nat) (m t : Value), mid[i]? = some m → m.isMul = true →
          r.indices[i]? = some t → t.isTrunc = true → t = Value.trunc m (IdxTy.int 32)) := by
  refine ⟨visit_total Inst, ?_⟩
  intro r hr
  have hnoMul : Inst.indices.filter Value.isMul = [] := by
    rw [List.filter_eq_nil_iff]
    intro v hv
    simp [(hpre v hv).1]
  have hnoTrunc : Inst.indices.filter Value.isTrunc = [] := by
    rw [List.filter_eq_nil_iff]
    intro v hv
    simp [(hpre v hv).2]
  cases hp : Inst.pointerOperandType with
  | ptr baseType =>
    have hr' := hr
    unfold visitGetElementPtrInst at hr'
    rw [hp] at hr'
    cases hst : doublingStage baseType Inst with
    | none => simp [hst] at hr'
    | some st =>
      simp only [hst] at hr'
      have hpos := doublingStage_positions baseType Inst st hst
      have hnar := (narrowingStage_positions st r hr').1
      have hins := doublingStage_inserted_eq baseType Inst st (fun v hv => (hpre v hv).1) hst
      have hmidshape : ∀ x ∈ st.indices, ∃ v ∈ Inst.indices, x.isTrunc = false ∧
          (x.isMul = true → x = Value.mul v (ConstantInt.get v.getType 2)) ∧
          (x = v ∨ x.isMul = true ∨ x.asConstantInt.isSome = true) := by
        intro x hx
        obtain ⟨v, hv, hvx⟩ := forall₂_mem_right hpos x hx
        obtain ⟨h1, h2⟩ := doubled_shape v x hvx (hpre v hv)
        refine ⟨v, hv, h1, h2, ?_⟩
        rcases rewritten_shape v x x hvx (Or.inl rfl) with h | h | h | h | h
        · exact Or.inl h
        · exact Or.inr (Or.inr h.2)
        · exact Or.inr (Or.inl (by rw [h]; rfl))
        · rw [h] at h1
          cases h1
        · rw [h] at h1
          cases h1
      have hrins : r.inserted = st.indices.filter Value.isMul ++
          r.indices.filter Value.isTrunc := by
        unfold narrowingStage at hr'
        cases hI : st.indices with
        | nil => simp [hI] at hr'
        | cons f rest =>
          simp only [hI] at hr'
          split at hr'
          · rw [narrowLoop_eq] at hr'
            simp only [List.nil_append, Option.some.injEq] at hr'
            subst hr'
            simp only [hins, hI, filter_isTrunc_narrow]
          · simp only [Option.some.injEq] at hr'
            subst hr'
            have : st.indices.filter Value.isTrunc = [] := by
              rw [List.filter_eq_nil_iff]
              intro x hx
              obtain ⟨_, _, h1, _⟩ := hmidshape x hx
              simp [h1]
            rw [← hI, this, hins]
            simp
      refine ⟨st.indices, ?_, ?_, ?_, ?_, ?_, ?_, ?_⟩
      · intro b hb
        cases hb
        exact ⟨st, hst, rfl⟩
      · exact hrins
      · intro m hm
        simp only [List.mem_filter] at hm
        obtain ⟨v, hv, _, h2, _⟩ := hmidshape m hm.1
        exact ⟨v, hv, h2 hm.2⟩
      · intro t ht
        simp only [List.mem_filter] at ht
        obtain ⟨x, hx, hxt⟩ := forall₂_mem_right hnar t ht.1
        rcases hxt with h | h
        · obtain ⟨_, _, h1, _⟩ := hmidshape x hx
          rw [h, h1] at ht
          cases ht.2
        · refine ⟨x, hx, ?_⟩
          rw [h]
          exact narrowNewVal_isTrunc x (by rw [← h]; exact ht.2)
      · intro x hx
        obtain ⟨v, hv, _, _, h3⟩ := hmidshape x hx
        rcases h3 with h | h | h
        · exact Or.inl (by rw [h]; exact hv)
        · exact Or.inr (Or.inl (List.mem_filter.mpr ⟨hx, h⟩))
        · exact Or.inr (Or.inr h)
      · intro x hx hc
        rw [hrins, List.mem_append]
        rcases hc with hc | hc
        · left
          obtain ⟨y, hy, hyx⟩ := forall₂_mem_right hnar x hx
          rcases hyx with h | h
          · rw [h]
            exact List.mem_filter.mpr ⟨hy, by rw [← h]; exact hc⟩
          · rw [h, narrowNewVal_isMul] at hc
            cases hc
        · right
          exact List.mem_filter.mpr ⟨hx, hc⟩
      · intro i m t hm hmul ht htr
        rcases forall₂_getElem hnar i m t hm ht with h | h
        · rw [h, isTrunc_of_isMul m hmul] at htr
          cases htr
        · rw [h]
          exact narrowNewVal_of_isMul m hmul
  | _ =>
    rw [visit_non_pointer Inst (by intro b hb; rw [hp] at hb; cases hb)] at hr
    simp only [Option.some.injEq] at hr
    subst hr
    refine ⟨Inst.indices, fun b hb => (by cases hb), by simp [hnoMul, hnoTrunc],
      by simp [hnoMul], by simp [hnoTrunc], fun x hx => Or.inl hx, ?_, ?_⟩
    · intro x hx hc
      rcases hc with hc | hc
      · rw [(hpre x hx).1] at hc
        cases hc
      · rw [(hpre x hx).2] at hc
        cases hc
    · intro i m t hm hmul _ _
      have := (hpre m (List.getElem?_mem hm)).1
      rw [this] at hmul
      cases hmul

/-- Witness for C19: pointer to an array of four pointers, indices `[%a, %b]` of type `i64`;
the block is the two multiplies followed by the two truncations of them. -/
theorem inserted_block_defs_before_uses_witness :
    visitGetElementPtrInst
        ⟨Ty.ptr (Ty.arr 4 (Ty.ptr (Ty.int 8))),
          [Value.other 1 (IdxTy.int 64), Value.other 2 (IdxTy.int 64)], true⟩
      = some ⟨[Value.trunc (Value.mul (Value.other 1 (IdxTy.int 64)) (Value.constantInt 64 2))
            (IdxTy.int 32),
          Value.trunc (Value.mul (Value.other 2 (IdxTy.int 64)) (Value.constantInt 64 2))
            (IdxTy.int 32)], false,
        [Value.mul (Value.other 1 (IdxTy.int 64)) (Value.constantInt 64 2),
          Value.mul (Value.other 2 (IdxTy.int 64)) (Value.constantInt 64 2),
          Value.trunc (Value.mul (Value.other 1 (IdxTy.int 64)) (Value.constantInt 64 2))
            (IdxTy.int 32),
          Value.trunc (Value.mul (Value.other 2 (IdxTy.int 64)) (Value.constantInt 64 2))
            (IdxTy.int 32)]⟩ ∧
    ∃ r, visitGetElementPtrInst
        ⟨Ty.ptr (Ty.arr 4 (Ty.ptr (Ty.int 8))),
          [Value.other 1 (IdxTy.int 64), Value.other 2 (IdxTy.int 64)], true⟩ = some r :=
  ⟨by decide,
    (inserted_block_defs_before_uses
      ⟨Ty.ptr (Ty.arr 4 (Ty.ptr (Ty.int 8))),
        [Value.other 1 (IdxTy.int 64), Value.other 2 (IdxTy.int 64)], true⟩
      (by
        intro v hv
        simp only [List.mem_cons, List.mem_singleton, List.not_mem_nil, or_false] at hv
        rcases hv with h | h <;> subst h <;> exact ⟨rfl, rfl⟩)).1 rfl⟩

/-! ## Wrap-around arithmetic -/

theorem modEq_of_dvd_sub (n : Int) (a b : Int) (h : n ∣ a - b) : Int.ModEq n a b :=
  (Int.modEq_iff_dvd.mpr (by
    have := (dvd_neg).mpr h
    simpa using this))

theorem signExtend_modEq (m b : Nat) : Int.ModEq ((2 : Int) ^ m) (signExtend m b) (b : Int) :=
  modEq_of_dvd_sub _ _ _ (signExtend_dvd m b)

theorem toNat_emod_modEq (z : Int) (m : Nat) :
    Int.ModEq ((2 : Int) ^ m) (((z % (2 : Int) ^ m).toNat : Nat) : Int) z := by
  have hP : (0 : Int) < (2 : Int) ^ m := by positivity
  rw [Int.toNat_of_nonneg (Int.emod_nonneg _ (ne_of_gt hP))]
  exact Int.mod_modEq z _

theorem toNat_emod_lt (z : Int) (m : Nat) : (z % (2 : Int) ^ m).toNat < 2 ^ m := by
  have hP : (0 : Int) < (2 : Int) ^ m := by positivity
  have h1 := Int.emod_lt_of_pos z hP
  have h0 := Int.emod_nonneg z (ne_of_gt hP)
  have : ((z % (2 : Int) ^ m).toNat : Int) < ((2 ^ m : Nat) : Int) := by
    rw [Int.toNat_of_nonneg h0]
    exact_mod_cast h1
  exact_mod_cast this

theorem toUInt64_modEq (z : Int) : Int.ModEq ((2 : Int) ^ 64) ((toUInt64 z : Nat) : Int) z :=
  toNat_emod_modEq z 64

theorem mulInt64_modEq (a b : Int) : Int.ModEq ((2 : Int) ^ 64) (mulInt64 a b) (a * b) :=
  (signExtend_modEq 64 _).trans (toNat_emod_modEq (a * b) 64)

theorem getSExtValue_modEq (w bits : Nat) (hw : w ≤ 64) :
    Int.ModEq ((2 : Int) ^ w) (getSExtValue w bits) (bits : Int) := by
  unfold getSExtValue
  rw [Nat.min_eq_left hw]
  exact signExtend_modEq w bits

theorem natCast_mod_modEq (x w : Nat) :
    Int.ModEq ((2 : Int) ^ w) (((x % 2 ^ w : Nat) : Nat) : Int) (x : Int) := by
  have e : ((x % 2 ^ w : Nat) : Int) = (x : Int) % (2 : Int) ^ w := by
    rw [Int.natCast_mod]
    norm_cast
  rw [e]
  exact Int.mod_modEq _ _

/-- A bit pattern below `2 ^ w` that is congruent to `z` is `z mod 2 ^ w`. -/
theorem bits_eq_emod (w x : Nat) (z : Int) (hx : x < 2 ^ w)
    (h : Int.ModEq ((2 : Int) ^ w) (x : Int) z) : x = (z % (2 : Int) ^ w).toNat := by
  apply bits_eq_of_cong w x _ z hx (toNat_emod_lt z w)
  · exact (Int.modEq_iff_dvd.mp h.symm)
  · exact (Int.modEq_iff_dvd.mp (toNat_emod_modEq z w).symm)

/-- The bit pattern of a doubled constant. -/
theorem doubled_bits (w : Nat) (k : Int) (hw : w ≤ 64) :
    toUInt64 (mulInt64 k 2) % 2 ^ w = ((2 * k) % (2 : Int) ^ w).toNat := by
  apply bits_eq_emod w _ _ (Nat.mod_lt _ (by positivity))
  have h64 : (2 : Int) ^ w ∣ (2 : Int) ^ 64 := pow_dvd_pow 2 hw
  have h1 := natCast_mod_modEq (toUInt64 (mulInt64 k 2)) w
  have h2 := ((toUInt64_modEq (mulInt64 k 2)).trans (mulInt64_modEq k 2)).of_dvd h64
  have h3 : k * 2 = 2 * k := by ring
  rw [h3] at h2
  exact h1.trans h2

/-- The bit pattern of a narrowed constant. -/
theorem narrowed_bits (k : Int) :
    toUInt64 k % 2 ^ 32 = (k % (2 : Int) ^ 32).toNat := by
  apply bits_eq_emod 32 _ _ (Nat.mod_lt _ (by positivity))
  have h64 : (2 : Int) ^ 32 ∣ (2 : Int) ^ 64 := pow_dvd_pow 2 (by norm_num)
  exact (natCast_mod_modEq (toUInt64 k) 32).trans ((toUInt64_modEq k).of_dvd h64)

theorem structNewVal_constant (w bits : Nat) (hw : w ≤ 64) :
    structNewVal (Value.constantInt w bits)
      = Value.constantInt w ((2 * getSExtValue w bits) % (2 : Int) ^ w).toNat := by
  simp only [structNewVal, Value.asConstantInt, Value.getType, ConstantInt.get,
    doubled_bits w _ hw]

theorem pointerArrayNewVal_constant (w bits : Nat) (hw : w ≤ 64) (hb : bits < 2 ^ w) :
    pointerArrayNewVal (Value.constantInt w bits)
      = Value.constantInt w ((2 * getSExtValue w bits) % (2 : Int) ^ w).toNat := by
  by_cases hz : getSExtValue w bits = 0
  · have hzero : bits = 0 :=
      (isZeroConstant_iff w bits hw hb).mp (by simp [isZeroConstant, Value.asConstantInt, hz])
    subst hzero
    simp only [pointerArrayNewVal, Value.asConstantInt, hz, if_true]
    simp
  · simp only [pointerArrayNewVal, Value.asConstantInt, hz, if_false, Value.getType,
      ConstantInt.get, doubled_bits w _ hw]

theorem narrowNewVal_constant (w bits : Nat) :
    narrowNewVal (Value.constantInt w bits)
      = Value.constantInt 32 ((getSExtValue w bits) % (2 : Int) ^ 32).toNat := by
  simp only [narrowNewVal, Value.asConstantInt, ConstantInt.get, narrowed_bits]

/-- C20. With no range assumption: a doubled constant of a width `w ≤ 64` with sign-extended
value `k` has bit pattern `(2 * k) mod 2 ^ w`, in the struct branch and in the pointer-array
branch; a narrowed constant with sign-extended value `k` has bit pattern `k mod 2 ^ 32`; and for
a 64-bit constant, narrowing the doubled constant and doubling (at width 32) the narrowed
constant both give bit pattern `(2 * k) mod 2 ^ 32`.  The loops of the pointer-array branch
and of the narrowing sweep put exactly these constants in place. -/
theorem constant_rewrites_wrap :
    (∀ w bits : Nat, w ≤ 64 → bits < 2 ^ w →
      structNewVal (Value.constantInt w bits)
        = Value.constantInt w ((2 * getSExtValue w bits) % (2 : Int) ^ w).toNat ∧
      pointerArrayNewVal (Value.constantInt w bits)
        = Value.constantInt w ((2 * getSExtValue w bits) % (2 : Int) ^ w).toNat ∧
      (pointerArrayLoop [] [Value.constantInt w bits] true []).indices
        = [Value.constantInt w ((2 * getSExtValue w bits) % (2 : Int) ^ w).toNat]) ∧
    (∀ w bits : Nat,
      narrowNewVal (Value.constantInt w bits)
        = Value.constantInt 32 ((getSExtValue w bits) % (2 : Int) ^ 32).toNat ∧
      narrowLoop (IdxTy.int 32) [] [Value.constantInt w bits] []
        = ([Value.constantInt 32 ((getSExtValue w bits) % (2 : Int) ^ 32).toNat], [])) ∧
    (∀ bits : Nat, bits < 2 ^ 64 →
      narrowNewVal (structNewVal (Value.constantInt 64 bits))
        = Value.constantInt 32 ((2 * getSExtValue 64 bits) % (2 : Int) ^ 32).toNat ∧
      structNewVal (narrowNewVal (Value.constantInt 64 bits))
        = Value.constantInt 32 ((2 * getSExtValue 64 bits) % (2 : Int) ^ 32).toNat ∧
      narrowNewVal (pointerArrayNewVal (Value.constantInt 64 bits))
        = Value.constantInt 32 ((2 * getSExtValue 64 bits) % (2 : Int) ^ 32).toNat ∧
      pointerArrayNewVal (narrowNewVal (Value.constantInt 64 bits))
        = Value.constantInt 32 ((2 * getSExtValue 64 bits) % (2 : Int) ^ 32).toNat) := by
  refine ⟨?_, ?_, ?_⟩
  · intro w bits hw hb
    refine ⟨structNewVal_constant w bits hw, pointerArrayNewVal_constant w bits hw hb, ?_⟩
    rw [pointerArrayLoop_eq]
    simp [pointerArrayNewVal_constant w bits hw hb]
  · intro w bits
    refine ⟨narrowNewVal_constant w bits, ?_⟩
    rw [narrowLoop_eq]
    simp [narrowNewVal_constant w bits, insertedTrunc, Value.asConstantInt]
  · intro bits hb
    have h32 : (2 : Int) ^ 32 ∣ (2 : Int) ^ 64 := pow_dvd_pow 2 (by norm_num)
    -- narrowing the doubled constant
    have hd : Int.ModEq ((2 : Int) ^ 32)
        (getSExtValue 64 ((2 * getSExtValue 64 bits) % (2 : Int) ^ 64).toNat)
        (2 * getSExtValue 64 bits) :=
      ((getSExtValue_modEq 64 _ (le_refl 64)).trans (toNat_emod_modEq _ 64)).of_dvd h32
    have hnd : narrowNewVal
        (Value.constantInt 64 ((2 * getSExtValue 64 bits) % (2 : Int) ^ 64).toNat)
        = Value.constantInt 32 ((2 * getSExtValue 64 bits) % (2 : Int) ^ 32).toNat := by
      rw [narrowNewVal_constant]
      have e : getSExtValue 64 ((2 * getSExtValue 64 bits) % (2 : Int) ^ 64).toNat
          % (2 : Int) ^ 32 = (2 * getSExtValue 64 bits) % (2 : Int) ^ 32 := hd
      rw [e]
    -- doubling the narrowed constant
    have hn : Int.ModEq ((2 : Int) ^ 32)
        (2 * getSExtValue 32 ((getSExtValue 64 bits) % (2 : Int) ^ 32).toNat)
        (2 * getSExtValue 64 bits) :=
      Int.ModEq.mul_left 2
        ((getSExtValue_modEq 32 _ (by norm_num)).trans (toNat_emod_modEq _ 32))
    have e2 : (2 * getSExtValue 32 ((getSExtValue 64 bits) % (2 : Int) ^ 32).toNat)
        % (2 : Int) ^ 32 = (2 * getSExtValue 64 bits) % (2 : Int) ^ 32 := hn
    refine ⟨?_, ?_, ?_, ?_⟩
    · rw [structNewVal_constant 64 bits (le_refl 64), hnd]
    · rw [narrowNewVal_constant, structNewVal_constant 32 _ (by norm_num), e2]
    · rw [pointerArrayNewVal_constant 64 bits (le_refl 64) hb, hnd]
    · rw [narrowNewVal_constant,
        pointerArrayNewVal_constant 32 _ (by norm_num) (toNat_emod_lt _ 32), e2]

/-- Witness for C20: the 8-bit constant 127 (value 127) doubles to bit pattern
`254 mod 2 ^ 8`, with no range assumption. -/
theorem constant_rewrites_wrap_witness :
    structNewVal (Value.constantInt 8 127)
      = Value.constantInt 8 ((2 * getSExtValue 8 127) % (2 : Int) ^ 8).toNat :=
  (constant_rewrites_wrap.1 8 127 (by decide) (by decide)).1

end PointerArrayIndexExpand
